import Mathlib

/-!
# Verification of the lazy deepcopy batcher

A shallow embedding of
`pyperformance/data-files/benchmarks/bm_deepcopy/lazydeepcopy.py`:
the `DeepcopyBatcher` (queue of pending entries, `defer`, `get`, `flush`,
`_should_flush_locked`, `_flush_locked`), the `_Handle` cells and the
`_Proxy` front end.

Python object graphs are embedded as a heap: a list of objects indexed by
address, where an object is an immutable atom, a mutable container holding
addresses of its elements, or an uncopyable object (one on which the
deep-copy primitive raises).  Referential identity (`is` / `id`) is
equality of addresses.  The external deep-copy primitive (`copy.deepcopy`)
is modelled with its documented semantics: one memo table per call keyed
by identity, atoms returned as-is, containers freshly allocated with the
output node created before the children are copied (so cyclic and shared
structure is mirrored).  The memo forces fuel-free nontermination concerns
into an explicit fuel parameter; all theorems that need a successful copy
take success as a hypothesis and are instantiated on concrete inputs.
-/

namespace LazyDeepcopy

/-- A Python object: an immutable atom (e.g. an int), a mutable container
(`list`-like, holding heap addresses of its elements), or an object that
`copy.deepcopy` refuses to copy. -/
inductive PyObj where
  | atom (n : Int)
  | plist (elems : List Nat)
  | uncopyable
deriving DecidableEq, Repr

/-- The Python heap: objects indexed by address; `id(x)` is the index. -/
abbrev Heap := List PyObj

/-- Read the object at address `a` (`none` if the address is dangling). -/
def hget : Heap → Nat → Option PyObj
  | [], _ => none
  | o :: _, 0 => some o
  | _ :: t, n + 1 => hget t n

/-- Overwrite the object at address `a` (no-op if out of range). -/
def hset : Heap → Nat → PyObj → Heap
  | [], _, _ => []
  | _ :: t, 0, v => v :: t
  | o :: t, n + 1, v => o :: hset t n v

/-- The addresses an object refers to directly. -/
def PyObj.children : PyObj → List Nat
  | .plist elems => elems
  | _ => []

/-- Every reference in the heap is in range (no dangling addresses). -/
def heapWFb (h : Heap) : Bool :=
  h.all (fun o => o.children.all (fun x => decide (x < h.length)))

/-- First-match association-list lookup, the model of a `dict` keyed by
`id(obj)` (the deepcopy memo and the `seen` table of `_flush_locked`). -/
def mlookup : List (Nat × Nat) → Nat → Option Nat
  | [], _ => none
  | (k, v) :: r, a => if k = a then some v else mlookup r a

/-- Errors of the deep-copy primitive in this embedding: the object (or
something reachable from it) is uncopyable, a reference dangles, or the
explicit fuel ran out (an artifact of the embedding; every claim that
needs a successful copy hypothesises success). -/
inductive CopyErr where
  | uncopyable
  | dangling
  | fuel
deriving DecidableEq, Repr

/-- Copy each element of a list in order with the one-address copy
function `f`, threading the heap and the shared memo table, and stop at
the first failure — the element loop of `copy.deepcopy` on a list. -/
def copyList
    (f : Heap → List (Nat × Nat) → Nat → Except CopyErr (Heap × List (Nat × Nat) × Nat)) :
    Heap → List (Nat × Nat) → List Nat →
      Except CopyErr (Heap × List (Nat × Nat) × List Nat)
  | h, memo, [] => .ok (h, memo, [])
  | h, memo, e :: rest =>
    match f h memo e with
    | .error err => .error err
    | .ok (h', memo', e') =>
      match copyList f h' memo' rest with
      | .error err => .error err
      | .ok (h'', memo'', rest') => .ok (h'', memo'', e' :: rest')

/-- Modelled from the spec: the external Deep-Copy Primitive (spec section 6),
realized in the source by Python `copy.deepcopy` on a single root.  One
memo table per call, keyed by identity: atoms are returned as-is (not
memoized), containers are freshly allocated, inserted into the memo before
their children are copied (so back-edges and sharing are mirrored), and
their element list is filled with the copied children.  The fuel bounds
the recursion depth and is an artifact of the embedding (Python's
deepcopy has no such bound; every claim that needs a successful copy
hypothesises one). -/
def deepcopyAddr : Nat → Heap → List (Nat × Nat) → Nat →
    Except CopyErr (Heap × List (Nat × Nat) × Nat)
  | 0 => fun _ _ _ => .error .fuel
  | fuel + 1 => fun h memo a =>
    match hget h a with
    | none => .error .dangling
    | some (.atom _) => .ok (h, memo, a)
    | some .uncopyable => .error .uncopyable
    | some (.plist elems) =>
      match mlookup memo a with
      | some d => .ok (h, memo, d)
      | none =>
        match copyList (deepcopyAddr fuel) (h ++ [.plist []]) ((a, h.length) :: memo) elems with
        | .error e => .error e
        | .ok (h', memo', elems') => .ok (hset h' h.length (.plist elems'), memo', h.length)

/-- Modelled from the spec: the Deep-Copy Primitive applied to a list of
roots sharing one memo table — `copy.deepcopy(inputs)` applied to the
fresh `inputs` list built by `_flush_locked`, elementwise. -/
def deepcopyElems (fuel : Nat) (h : Heap) (memo : List (Nat × Nat)) (l : List Nat) :
    Except CopyErr (Heap × List (Nat × Nat) × List Nat) :=
  copyList (deepcopyAddr fuel) h memo l

theorem deepcopyElems_eq (fuel : Nat) (h : Heap) (memo : List (Nat × Nat)) (l : List Nat) :
    copyList (deepcopyAddr fuel) h memo l = deepcopyElems fuel h memo l := rfl

/-- Structural (deep) equality of two heap locations, compared to depth
`fuel`; `structEq n` for every `n` is deep equality of the unfoldings, the
model of `==` on the copied graphs. -/
def structEq (n : Nat) (h1 : Heap) (a : Nat) (h2 : Heap) (b : Nat) : Bool :=
  match n with
  | 0 => true
  | n + 1 =>
    match hget h1 a, hget h2 b with
    | some (.atom m1), some (.atom m2) => m1 == m2
    | some (.plist xs), some (.plist ys) =>
      xs.length == ys.length &&
        (List.zip xs ys).all (fun p => structEq n h1 p.1 h2 p.2)
    | some .uncopyable, some .uncopyable => true
    | _, _ => false

/-- Alias policy of a pending entry (`"preserve"` / `"duplicate"`). -/
inductive Alias where
  | preserve
  | duplicate
deriving DecidableEq, Repr

/-- Consistency mode (`"at_access"` / `"strict"`). -/
inductive Consistency where
  | atAccess
  | strict
deriving DecidableEq, Repr

/-- `alias == "duplicate"`, the test of the fast path of `_flush_locked`. -/
def aliasIsDuplicate : Alias → Bool
  | .duplicate => true
  | .preserve => false

/-- `_Handle`: `_value` is the address of the resolved copy once ready
(Python initializes `_value = None`), `_ready` the resolution flag. -/
structure Handle where
  value : Option Nat
  ready : Bool
deriving DecidableEq, Repr

/-- A freshly constructed `_Handle()`. -/
def Handle.init : Handle := { value := none, ready := false }

/-- One queued item of `DeepcopyBatcher._queue`: the
`(handle, obj, alias_policy_at_enqueue)` triple, with the handle named by
its index into the batcher's handle store and the object by its address. -/
structure PendingEntry where
  handle : Nat
  obj : Nat
  aliasPol : Alias
deriving DecidableEq, Repr

/-- `DeepcopyBatcher` state.  The mutable `_Handle` cells the batcher ever
created are modelled as the store `handles` (a handle reference is an
index into it); `queue`, `maxItems`, `maxBytes`, `consistency`,
`aliasPol` and `pendingBytes` are the corresponding `__init__` fields. -/
structure BatcherSt where
  handles : List Handle
  queue : List PendingEntry
  maxItems : Int
  maxBytes : Option Int
  consistency : Consistency
  aliasPol : Alias
  pendingBytes : Int
deriving DecidableEq, Repr

/-- `DeepcopyBatcher.__init__`: records the configuration, starts with an
empty queue and `_pending_bytes = 0`.  No validation is performed. -/
def DeepcopyBatcher.init (maxItems : Int) (maxBytes : Option Int)
    (consistency : Consistency) (aliasPol : Alias) : BatcherSt :=
  { handles := []
    queue := []
    maxItems := maxItems
    maxBytes := maxBytes
    consistency := consistency
    aliasPol := aliasPol
    pendingBytes := 0 }

/-- The handle cell at index `i` of the store. -/
def handleAt (st : BatcherSt) (i : Nat) : Handle :=
  st.handles.getD i Handle.init

/-- `_should_flush_locked`: flush when the queue length reaches
`max_items`, or when `max_bytes` is configured and `_pending_bytes`
reaches it. -/
def shouldFlushLocked (st : BatcherSt) : Bool :=
  if (st.queue.length : Int) ≥ st.maxItems then true
  else
    match st.maxBytes with
    | some mb => decide (st.pendingBytes ≥ mb)
    | none => false

/-- `h._value = c; h._ready = True` for each `(handle index, copy address)`
pair, in order — the fan-out loops of `_flush_locked`. -/
def fanOut (handles : List Handle) (pairs : List (Nat × Nat)) : List Handle :=
  pairs.foldl (fun hs p => hs.set p.1 { value := some p.2, ready := true }) handles

/-- The `inputs` / `index_for_queue_pos` / `seen` loop of `_flush_locked`
(mixed or all-"preserve" case): `preserve` entries are deduplicated by
referential identity (`id(obj)`, here the address) through the `seen`
table; `duplicate` entries always get a fresh slot of `inputs`. -/
def buildInputs : List PendingEntry → List Nat → List Nat → List (Nat × Nat) →
    List Nat × List Nat
  | [], inputs, idxs, _ => (inputs, idxs)
  | e :: rest, inputs, idxs, seen =>
    if e.aliasPol = .preserve then
      match mlookup seen e.obj with
      | some i => buildInputs rest inputs (idxs ++ [i]) seen
      | none =>
        buildInputs rest (inputs ++ [e.obj]) (idxs ++ [inputs.length])
          ((e.obj, inputs.length) :: seen)
    else
      buildInputs rest (inputs ++ [e.obj]) (idxs ++ [inputs.length]) seen

/-- `_flush_locked`: resolve the whole queue with one `copy.deepcopy` call
on the built `inputs` list, fan the outputs back to the queued handles,
then clear the queue and reset `_pending_bytes`.  A failure of the
deep-copy primitive propagates before any handle or queue mutation, so
the state comes back unchanged alongside the error. -/
def flushLocked (fuel : Nat) (st : BatcherSt) (heap : Heap) :
    Option CopyErr × BatcherSt × Heap :=
  if st.queue.all (fun e => aliasIsDuplicate e.aliasPol) then
    let inputs := st.queue.map (fun e => e.obj)
    match deepcopyElems fuel heap [] inputs with
    | .error e => (some e, st, heap)
    | .ok (heap', _, outs) =>
      let handles' := fanOut st.handles (List.zip (st.queue.map (fun e => e.handle)) outs)
      (none, { st with handles := handles', queue := [], pendingBytes := 0 }, heap')
  else
    let built := buildInputs st.queue [] [] []
    match deepcopyElems fuel heap [] built.1 with
    | .error e => (some e, st, heap)
    | .ok (heap', _, outs) =>
      let handles' := fanOut st.handles
        (List.zip (st.queue.map (fun e => e.handle)) (built.2.map (fun i => outs.getD i 0)))
      (none, { st with handles := handles', queue := [], pendingBytes := 0 }, heap')

/-- `flush`: no-op on an empty queue, otherwise `_flush_locked`. -/
def flush (fuel : Nat) (st : BatcherSt) (heap : Heap) :
    Option CopyErr × BatcherSt × Heap :=
  if st.queue.isEmpty then (none, st, heap) else flushLocked fuel st heap

/-- `defer`: resolve the per-call `consistency` / `alias` overrides against
the batcher-wide defaults; with `strict` consistency copy synchronously
and return a ready handle that never enters the queue; otherwise append a
pending entry and auto-flush if `_should_flush_locked` says so.  The
result is `(error?, state, heap, handle index)`; an error can only come
from the deep-copy primitive (synchronously under `strict`, or from the
auto-flush), and propagates with the state as the failing call left it. -/
def defer (fuel : Nat) (st : BatcherSt) (heap : Heap) (obj : Nat)
    (consistencyArg : Option Consistency) (aliasArg : Option Alias) :
    Option CopyErr × BatcherSt × Heap × Nat :=
  let consistency := consistencyArg.getD st.consistency
  let al := aliasArg.getD st.aliasPol
  let hIdx := st.handles.length
  if consistency = .strict then
    match deepcopyAddr fuel heap [] obj with
    | .error e => (some e, st, heap, hIdx)
    | .ok (heap', _, addr) =>
      (none,
        { st with handles := st.handles ++ [{ value := some addr, ready := true }] },
        heap', hIdx)
  else
    let st' := { st with
      handles := st.handles ++ [Handle.init]
      queue := st.queue ++ [{ handle := hIdx, obj := obj, aliasPol := al }] }
    if shouldFlushLocked st' then
      match flushLocked fuel st' heap with
      | (e?, st'', heap'') => (e?, st'', heap'', hIdx)
    else (none, st', heap, hIdx)

/-- `get`: return the value immediately if the handle is ready, otherwise
flush the whole batch and return the handle's (then-current) value. -/
def get (fuel : Nat) (st : BatcherSt) (heap : Heap) (hIdx : Nat) :
    Option CopyErr × BatcherSt × Heap × Option Nat :=
  let h := handleAt st hIdx
  if h.ready then (none, st, heap, h.value)
  else
    match flush fuel st heap with
    | (some e, st', heap') => (some e, st', heap', none)
    | (none, st', heap') => (none, st', heap', (handleAt st' hIdx).value)

/-- `_Proxy`: stores the batcher and a handle reference; here the batcher
is threaded explicitly, so a proxy is just the handle index. -/
structure Proxy where
  handle : Nat
deriving DecidableEq, Repr

/-- `defer_proxy`: `defer` then wrap the returned handle. -/
def deferProxy (fuel : Nat) (st : BatcherSt) (heap : Heap) (obj : Nat)
    (consistencyArg : Option Consistency) (aliasArg : Option Alias) :
    Option CopyErr × BatcherSt × Heap × Proxy :=
  match defer fuel st heap obj consistencyArg aliasArg with
  | (e?, st', heap', hIdx) => (e?, st', heap', { handle := hIdx })

/-- `_Proxy._resolve`, the body of every delegating operation
(`__getattr__`, `__getitem__`, `__setitem__`, `__iter__`, `__len__`,
`__bool__`, `__str__`): `batcher.get(handle)`. -/
def proxyResolve (fuel : Nat) (st : BatcherSt) (heap : Heap) (p : Proxy) :
    Option CopyErr × BatcherSt × Heap × Option Nat :=
  get fuel st heap p.handle

/-- Depth-bounded rendering of a resolved value, standing in for
`repr(self._value)` (Python's own repr of cyclic lists likewise
cuts off with an ellipsis marker). -/
def reprValue (n : Nat) (heap : Heap) (a : Nat) : String :=
  match n with
  | 0 => "[...]"
  | n + 1 =>
    match hget heap a with
    | some (.atom m) => toString m
    | some (.plist xs) =>
      "[" ++ String.intercalate ", " (xs.map (fun x => reprValue n heap x)) ++ "]"
    | some .uncopyable => "<uncopyable>"
    | none => "<dangling>"

/-- `_Proxy.__repr__`: if the handle is not ready, answer with the fixed
unresolved marker; otherwise render the resolved value.  Either way it
performs no resolution and no mutation, which the result type records by
returning the state and heap alongside the string. -/
def proxyRepr (st : BatcherSt) (heap : Heap) (p : Proxy) :
    String × BatcherSt × Heap :=
  if (handleAt st p.handle).ready then
    match (handleAt st p.handle).value with
    | some a => (reprValue (heap.length + 1) heap a, st, heap)
    | none => ("None", st, heap)
  else ("<LazyDeepCopy unresolved>", st, heap)

/-! ## Basic lemmas about the heap and association lists -/

theorem hget_lt_length {h : Heap} {a : Nat} {o : PyObj} (hg : hget h a = some o) :
    a < h.length := by
  induction h generalizing a with
  | nil => simp [hget] at hg
  | cons x t ih =>
    cases a with
    | zero => simp
    | succ n => simpa using Nat.succ_lt_succ (ih (by simpa [hget] using hg))

theorem hget_append_lt {h t : Heap} {a : Nat} (ha : a < h.length) :
    hget (h ++ t) a = hget h a := by
  induction h generalizing a with
  | nil => simp at ha
  | cons x s ih =>
    cases a with
    | zero => simp [hget]
    | succ n => simpa [hget] using ih (by simpa using ha)

theorem hget_append_length (h : Heap) (v : PyObj) (t : Heap) :
    hget (h ++ v :: t) h.length = some v := by
  induction h with
  | nil => simp [hget]
  | cons x s ih => simpa [hget] using ih

theorem hset_length (h : Heap) (a : Nat) (v : PyObj) :
    (hset h a v).length = h.length := by
  induction h generalizing a with
  | nil => simp [hset]
  | cons x t ih =>
    cases a with
    | zero => simp [hset]
    | succ n => simp [hset, ih]

theorem hget_hset_self {h : Heap} {a : Nat} (v : PyObj) (ha : a < h.length) :
    hget (hset h a v) a = some v := by
  induction h generalizing a with
  | nil => simp at ha
  | cons x t ih =>
    cases a with
    | zero => simp [hset, hget]
    | succ n => simpa [hset, hget] using ih (by simpa using ha)

theorem hget_hset_ne {h : Heap} {a b : Nat} (v : PyObj) (hne : a ≠ b) :
    hget (hset h a v) b = hget h b := by
  induction h generalizing a b with
  | nil => simp [hset]
  | cons x t ih =>
    cases a with
    | zero =>
      cases b with
      | zero => exact absurd rfl hne
      | succ m => simp [hset, hget]
    | succ n =>
      cases b with
      | zero => simp [hset, hget]
      | succ m => simpa [hset, hget] using ih (fun hc => hne (by simpa using hc))

theorem hget_mem {h : Heap} {a : Nat} {o : PyObj} (hg : hget h a = some o) : o ∈ h := by
  induction h generalizing a with
  | nil => simp [hget] at hg
  | cons x t ih =>
    cases a with
    | zero => simp [hget] at hg; simp [hg]
    | succ n => exact List.mem_cons_of_mem _ (ih (by simpa [hget] using hg))

theorem heapWFb_children {h : Heap} {a x : Nat} {o : PyObj} (hwf : heapWFb h = true)
    (hg : hget h a = some o) (hx : x ∈ o.children) : x < h.length := by
  have ho := hget_mem hg
  simp only [heapWFb, List.all_eq_true] at hwf
  have := hwf o ho x hx
  simpa using this

theorem hset_eq_set (h : Heap) (a : Nat) (v : PyObj) : hset h a v = h.set a v := by
  induction h generalizing a with
  | nil => simp [hset]
  | cons y t ih =>
    cases a with
    | zero => simp [hset]
    | succ n => simp [hset, ih]

theorem heapWFb_hset {h : Heap} {a : Nat} {elems : List Nat} (hwf : heapWFb h = true)
    (helems : ∀ y ∈ elems, y < h.length) :
    heapWFb (hset h a (.plist elems)) = true := by
  simp only [heapWFb, List.all_eq_true] at hwf ⊢
  intro o ho x hx
  rw [hset_length]
  rw [hset_eq_set] at ho
  rcases List.mem_or_eq_of_mem_set ho with hmem | heq
  · simpa using hwf o hmem x hx
  · subst heq
    exact by simpa using helems x (by simpa [PyObj.children] using hx)

theorem mlookup_none_of_not_key {m : List (Nat × Nat)} {a : Nat}
    (h : a ∉ m.map Prod.fst) : mlookup m a = none := by
  induction m with
  | nil => rfl
  | cons p r ih =>
    simp only [List.map_cons, List.mem_cons] at h
    push_neg at h
    simp [mlookup, Ne.symm h.1, ih h.2]

theorem mlookup_isSome_key {m : List (Nat × Nat)} {a : Nat}
    (h : (mlookup m a).isSome) : a ∈ m.map Prod.fst := by
  by_contra hc
  rw [mlookup_none_of_not_key hc] at h
  simp at h

theorem mlookup_some_mem {m : List (Nat × Nat)} {a v : Nat}
    (h : mlookup m a = some v) : (a, v) ∈ m := by
  induction m with
  | nil => simp [mlookup] at h
  | cons p r ih =>
    by_cases hp : p.1 = a
    · cases p with
      | mk k w =>
        simp only at hp
        subst hp
        simp only [mlookup, if_pos rfl] at h
        simp [← Option.some_inj.mp h]
    · cases p with
      | mk k w =>
        simp only at hp
        simp only [mlookup, if_neg hp] at h
        exact List.mem_cons_of_mem _ (ih h)

theorem mem_mlookup_of_nodup {m : List (Nat × Nat)} {a v : Nat}
    (hnd : (m.map Prod.fst).Nodup) (h : (a, v) ∈ m) : mlookup m a = some v := by
  induction m with
  | nil => simp at h
  | cons p r ih =>
    simp only [List.map_cons, List.nodup_cons] at hnd
    rcases List.mem_cons.mp h with rfl | hmem
    · simp [mlookup]
    · have hne : p.1 ≠ a := by
        intro hc
        exact hnd.1 (hc ▸ (List.mem_map.mpr ⟨(a, v), hmem, rfl⟩))
      simp [mlookup, hne, ih hnd.2 hmem]

theorem mlookup_append_of_not_key {pre m : List (Nat × Nat)} {a : Nat}
    (h : a ∉ pre.map Prod.fst) : mlookup (pre ++ m) a = mlookup m a := by
  induction pre with
  | nil => rfl
  | cons p r ih =>
    simp only [List.map_cons, List.mem_cons] at h
    push_neg at h
    simp [mlookup, Ne.symm h.1, ih h.2]

/-! ## Lemmas about the handle store and the flush fan-out -/

theorem getD_set_self {l : List Handle} {i : Nat} (v d : Handle) (hi : i < l.length) :
    (l.set i v).getD i d = v := by
  induction l generalizing i with
  | nil => simp at hi
  | cons x t ih =>
    cases i with
    | zero => simp [List.getD]
    | succ n => simpa [List.getD] using ih (by simpa using hi)

theorem getD_set_ne {l : List Handle} {i j : Nat} (v d : Handle) (hne : i ≠ j) :
    (l.set i v).getD j d = l.getD j d := by
  induction l generalizing i j with
  | nil => simp
  | cons x t ih =>
    cases i with
    | zero =>
      cases j with
      | zero => exact absurd rfl hne
      | succ m => simp [List.getD]
    | succ n =>
      cases j with
      | zero => simp [List.getD]
      | succ m => simpa [List.getD] using ih (fun hc => hne (by simpa using hc))

theorem fanOut_length (pairs : List (Nat × Nat)) (hs : List Handle) :
    (fanOut hs pairs).length = hs.length := by
  induction pairs generalizing hs with
  | nil => rfl
  | cons p r ih => simpa [fanOut, List.foldl_cons] using ih (hs.set p.1 _)

theorem fanOut_ready (pairs : List (Nat × Nat)) (hs : List Handle) (i : Nat)
    (hi : i < hs.length)
    (hmem : i ∈ pairs.map Prod.fst ∨
      (((hs.getD i Handle.init).ready = true ∧ ((hs.getD i Handle.init).value).isSome))) :
    ((fanOut hs pairs).getD i Handle.init).ready = true ∧
      (((fanOut hs pairs).getD i Handle.init).value).isSome := by
  induction pairs generalizing hs with
  | nil =>
    rcases hmem with hmem | hmem
    · simp at hmem
    · simpa [fanOut] using hmem
  | cons p r ih =>
    have hstep : fanOut hs (p :: r) =
        fanOut (hs.set p.1 { value := some p.2, ready := true }) r := rfl
    rw [hstep]
    by_cases hip : i = p.1
    · subst hip
      refine ih _ (by simpa using hi) (Or.inr ?_)
      rw [getD_set_self _ _ hi]
      simp
    · refine ih _ (by simpa using hi) ?_
      rcases hmem with hmem | hmem
      · rcases List.mem_map.mp hmem with ⟨q, hq, hq1⟩
        rcases List.mem_cons.mp hq with rfl | hqr
        · exact absurd hq1.symm hip
        · exact Or.inl (List.mem_map.mpr ⟨q, hqr, hq1⟩)
      · exact Or.inr (by rwa [getD_set_ne _ _ (fun hc => hip hc.symm)])

theorem deepcopyElems_length {fuel : Nat} {h : Heap} {memo : List (Nat × Nat)}
    {l : List Nat} {H : Heap} {M : List (Nat × Nat)} {rs : List Nat}
    (hok : deepcopyElems fuel h memo l = .ok (H, M, rs)) : rs.length = l.length := by
  induction l generalizing h memo rs with
  | nil =>
    simp only [deepcopyElems, copyList] at hok
    cases hok
    rfl
  | cons e rest ih =>
    simp only [deepcopyElems, copyList] at hok
    simp only [deepcopyElems_eq] at hok
    rcases h1 : deepcopyAddr fuel h memo e with e1 | ⟨h', memo', e'⟩
    · rw [h1] at hok; cases hok
    · rw [h1] at hok; dsimp only at hok
      rcases h2 : deepcopyElems fuel h' memo' rest with e2 | ⟨h'', memo'', rest'⟩
      · rw [h2] at hok; cases hok
      · rw [h2] at hok; dsimp only at hok
        simp only [Except.ok.injEq, Prod.mk.injEq] at hok
        rcases hok with ⟨rfl, rfl, rfl⟩
        simpa using ih h2

theorem buildInputs_idxs_length (q : List PendingEntry) :
    ∀ inputs idxs seen,
      (buildInputs q inputs idxs seen).2.length = idxs.length + q.length := by
  induction q with
  | nil => intro inputs idxs seen; simp [buildInputs]
  | cons e rest ih =>
    intro inputs idxs seen
    by_cases hp : e.aliasPol = .preserve
    · rcases hl : mlookup seen e.obj with _ | i
      · simp only [buildInputs, if_pos hp, hl]
        rw [ih]
        simp
        omega
      · simp only [buildInputs, if_pos hp, hl]
        rw [ih]
        simp
        omega
    · simp only [buildInputs, if_neg hp]
      rw [ih]
      simp
      omega

/-- All-or-nothing, failure half: a failing `_flush_locked` propagates the
copy error and leaves the batcher state and heap exactly as they were (the
queue still holds every pending entry and no handle was touched). -/
theorem flushLocked_error_unchanged {fuel : Nat} {st : BatcherSt} {heap : Heap}
    {e : CopyErr} {st' : BatcherSt} {heap' : Heap}
    (h : flushLocked fuel st heap = (some e, st', heap')) :
    st' = st ∧ heap' = heap := by
  unfold flushLocked at h
  by_cases hall : st.queue.all (fun e => aliasIsDuplicate e.aliasPol)
  · rw [if_pos hall] at h
    rcases hq : deepcopyElems fuel heap [] (st.queue.map (fun e => e.obj)) with
      e1 | ⟨heap2, memo2, outs⟩ <;> simp only [hq] at h
    · simp only [Prod.mk.injEq] at h
      exact ⟨h.2.1.symm, h.2.2.symm⟩
    · simp at h
  · rw [if_neg hall] at h
    rcases hq : deepcopyElems fuel heap [] (buildInputs st.queue [] [] []).1 with
      e1 | ⟨heap2, memo2, outs⟩ <;> simp only [hq] at h
    · simp only [Prod.mk.injEq] at h
      exact ⟨h.2.1.symm, h.2.2.symm⟩
    · simp at h

/-- All-or-nothing, success half: a successful `_flush_locked` empties the
queue, resets the byte counter, and marks every queued handle ready with a
resolved value. -/
theorem flushLocked_ok_resolves {fuel : Nat} {st : BatcherSt} {heap : Heap}
    {st' : BatcherSt} {heap' : Heap}
    (hr : ∀ e ∈ st.queue, e.handle < st.handles.length)
    (hok : flushLocked fuel st heap = (none, st', heap')) :
    st'.queue = [] ∧ st'.pendingBytes = 0 ∧
      ∀ e ∈ st.queue, (handleAt st' e.handle).ready = true ∧
        ((handleAt st' e.handle).value).isSome := by
  unfold flushLocked at hok
  by_cases hall : st.queue.all (fun e => aliasIsDuplicate e.aliasPol)
  · rw [if_pos hall] at hok
    rcases hq : deepcopyElems fuel heap [] (st.queue.map (fun e => e.obj)) with
      e1 | ⟨heap2, memo2, outs⟩ <;> simp only [hq] at hok
    · simp at hok
    · have hlen : outs.length = st.queue.length := by
        simpa using deepcopyElems_length hq
    -- the zip of queue handles with outputs covers every queued handle
      have hst' : st' = { st with
          handles := fanOut st.handles
            (List.zip (st.queue.map (fun e => e.handle)) outs),
          queue := [], pendingBytes := 0 } := by
        simp only [Prod.mk.injEq] at hok
        exact hok.2.1.symm
      subst hst'
      refine ⟨rfl, rfl, ?_⟩
      intro e he
      have hkey : e.handle ∈
          (List.zip (st.queue.map (fun e => e.handle)) outs).map Prod.fst := by
        rw [List.map_fst_zip _ _ (by simp [hlen])]
        exact List.mem_map.mpr ⟨e, he, rfl⟩
      exact fanOut_ready _ _ _ (hr e he) (Or.inl hkey)
  · rw [if_neg hall] at hok
    rcases hq : deepcopyElems fuel heap [] (buildInputs st.queue [] [] []).1 with
      e1 | ⟨heap2, memo2, outs⟩ <;> simp only [hq] at hok
    · simp at hok
    · have hst' : st' = { st with
          handles := fanOut st.handles
            (List.zip (st.queue.map (fun e => e.handle))
              ((buildInputs st.queue [] [] []).2.map (fun i => outs.getD i 0))),
          queue := [], pendingBytes := 0 } := by
        simp only [Prod.mk.injEq] at hok
        exact hok.2.1.symm
      subst hst'
      refine ⟨rfl, rfl, ?_⟩
      intro e he
      have hlen : ((buildInputs st.queue [] [] []).2.map (fun i => outs.getD i 0)).length =
          st.queue.length := by
        simp [buildInputs_idxs_length]
      have hkey : e.handle ∈
          (List.zip (st.queue.map (fun e => e.handle))
            ((buildInputs st.queue [] [] []).2.map (fun i => outs.getD i 0))).map Prod.fst := by
        rw [List.map_fst_zip _ _ (by simp [buildInputs_idxs_length])]
        exact List.mem_map.mpr ⟨e, he, rfl⟩
      exact fanOut_ready _ _ _ (hr e he) (Or.inl hkey)

/-! ## Correctness of the deep-copy primitive

The central invariants: the memo maps source container addresses to the
addresses of their (freshly allocated) copies; a finished memo entry's
copy holds exactly the images of the source children under the memo map;
source entries of the heap are never modified. -/

/-- The address holds an atom in the given heap. -/
def isAtomAt (h : Heap) (a : Nat) : Prop := ∃ n, hget h a = some (.atom n)

/-- The copy map induced by a memo: memoized addresses go to their copy,
everything else (atoms) to itself. -/
def memoMap (M : List (Nat × Nat)) (x : Nat) : Nat := (mlookup M x).getD x

/-- Invariant tying a memo to the original heap `h0` and the current heap
`h`: source entries are preserved, the heap only grew, memo keys are
source container addresses mapped to fresh in-range addresses, and no key
repeats. -/
structure MemoPre (h0 h : Heap) (memo : List (Nat × Nat)) : Prop where
  srcPres : ∀ i, i < h0.length → hget h i = hget h0 i
  lenLe : h0.length ≤ h.length
  keys : ∀ p ∈ memo, p.1 < h0.length ∧ (∃ xs, hget h0 p.1 = some (.plist xs)) ∧
    h0.length ≤ p.2 ∧ p.2 < h.length
  nodupKeys : (memo.map Prod.fst).Nodup

/-- A finished memo entry: the source is a container of `h0` and its copy
in `H` holds exactly the memo-mapped children; every child is either
memoized (a container, copied) or an atom of `h0` (returned as-is). -/
def DoneEntry (h0 H : Heap) (M : List (Nat × Nat)) (s d : Nat) : Prop :=
  ∃ xs, hget h0 s = some (.plist xs) ∧
    hget H d = some (.plist (xs.map (memoMap M))) ∧
    ∀ x ∈ xs, (mlookup M x).isSome ∨ isAtomAt h0 x

theorem memoMap_stable {h0 h H : Heap} {memo M : List (Nat × Nat)} {pre : List (Nat × Nat)}
    (hpre0 : MemoPre h0 h memo) (hpreM : MemoPre h0 H M) (hM : M = pre ++ memo)
    {x : Nat} (hx : (mlookup memo x).isSome ∨ isAtomAt h0 x) :
    memoMap M x = memoMap memo x := by
  rcases hx with hx | hx
  · have hkey : x ∈ memo.map Prod.fst := mlookup_isSome_key hx
    have hnot : x ∉ pre.map Prod.fst := by
      have := hpreM.nodupKeys
      rw [hM, List.map_append] at this
      exact fun hc => (List.disjoint_of_nodup_append this) hc hkey
    simp [memoMap, hM, mlookup_append_of_not_key hnot]
  · rcases hx with ⟨n, hn⟩
    have hnoneM : mlookup M x = none := by
      by_contra hc
      have hs : (mlookup M x).isSome := by
        cases hmx : mlookup M x with
        | none => exact absurd hmx hc
        | some v => simp
      have hkey := mlookup_isSome_key hs
      rcases List.mem_map.mp hkey with ⟨p, hp, hp1⟩
      rcases (hpreM.keys p hp).2.1 with ⟨xs, hxs⟩
      rw [hp1, hn] at hxs
      cases hxs
    have hnonem : mlookup memo x = none := by
      by_contra hc
      have hs : (mlookup memo x).isSome := by
        cases hmx : mlookup memo x with
        | none => exact absurd hmx hc
        | some v => simp
      have hkey := mlookup_isSome_key hs
      rcases List.mem_map.mp hkey with ⟨p, hp, hp1⟩
      rcases (hpre0.keys p hp).2.1 with ⟨xs, hxs⟩
      rw [hp1, hn] at hxs
      cases hxs
    simp [memoMap, hnoneM, hnonem]

/-- A finished entry stays finished when the heap is extended without
touching addresses below `h.length` and the memo is extended with fresh
keys. -/
theorem DoneEntry.mono {h0 h H : Heap} {memo M : List (Nat × Nat)} {s d : Nat}
    (hd : DoneEntry h0 h memo s d) (hpre0 : MemoPre h0 h memo) (hpreM : MemoPre h0 H M)
    (hkeep : ∀ i, i < h.length → hget H i = hget h i)
    (hM : ∃ pre, M = pre ++ memo) (hdlt : d < h.length) :
    DoneEntry h0 H M s d := by
  rcases hd with ⟨xs, hs, hd, hall⟩
  rcases hM with ⟨pre, hM⟩
  refine ⟨xs, hs, ?_, ?_⟩
  · rw [hkeep d hdlt, hd]
    congr 1
    congr 1
    exact List.map_congr_left fun x hx =>
      (memoMap_stable hpre0 hpreM hM (hall x hx)).symm
  · intro x hx
    rcases hall x hx with h1 | h1
    · left
      have := memoMap_stable (x := x) hpre0 hpreM hM (Or.inl h1)
      rcases Option.isSome_iff_exists.mp h1 with ⟨v, hv⟩
      simp only [memoMap, hv] at this
      cases hmx : mlookup M x with
      | none =>
        simp only [hmx, Option.getD_none, Option.getD_some] at this
        have hmem := mlookup_some_mem hv
        have hk := hpre0.keys _ hmem
        omega
      | some w => simp
    · exact Or.inr h1

theorem key_mlookup_isSome {m : List (Nat × Nat)} {a : Nat}
    (h : a ∈ m.map Prod.fst) : (mlookup m a).isSome := by
  induction m with
  | nil => simp at h
  | cons p r ih =>
    by_cases hp : p.1 = a
    · simp [mlookup, hp]
    · rcases List.mem_map.mp h with ⟨q, hq, hq1⟩
      rcases List.mem_cons.mp hq with rfl | hqr
      · exact absurd hq1 hp
      · simpa [mlookup, hp] using ih (List.mem_map.mpr ⟨q, hqr, hq1⟩)

/-- The state-transition part of the specification of one deep-copy call:
from `(h, memo)` to `(H, M)` over original heap `h0`, the invariant is
kept, nothing below `h.length` changes, and the memo grew by finished
entries pointing at or above `h.length`. -/
structure CopyStep (h0 h : Heap) (memo : List (Nat × Nat))
    (H : Heap) (M : List (Nat × Nat)) : Prop where
  memoPre : MemoPre h0 H M
  keep : ∀ i, i < h.length → hget H i = hget h i
  lenLe : h.length ≤ H.length
  newDone : ∃ pre, M = pre ++ memo ∧
    ∀ p ∈ pre, h.length ≤ p.2 ∧ DoneEntry h0 H M p.1 p.2
  donePres : ∀ s d, (s, d) ∈ memo → DoneEntry h0 h memo s d → DoneEntry h0 H M s d

theorem CopyStep.refl {h0 h : Heap} {memo : List (Nat × Nat)}
    (hp : MemoPre h0 h memo) : CopyStep h0 h memo h memo :=
  ⟨hp, fun _ _ => rfl, Nat.le_refl _, ⟨[], by simp, by simp⟩, fun _ _ _ hd => hd⟩

theorem CopyStep.trans {h0 h h1 H : Heap} {memo M1 M : List (Nat × Nat)}
    (c1 : CopyStep h0 h memo h1 M1) (c2 : CopyStep h0 h1 M1 H M) :
    CopyStep h0 h memo H M := by
  rcases c1.newDone with ⟨pre1, hM1, hpre1⟩
  rcases c2.newDone with ⟨pre2, hM2, hpre2⟩
  refine ⟨c2.memoPre, ?_, Nat.le_trans c1.lenLe c2.lenLe, ?_, ?_⟩
  · intro i hi
    rw [c2.keep i (Nat.lt_of_lt_of_le hi c1.lenLe), c1.keep i hi]
  · refine ⟨pre2 ++ pre1, by rw [hM2, hM1, List.append_assoc], ?_⟩
    intro p hp
    rcases List.mem_append.mp hp with hp2 | hp1
    · exact ⟨Nat.le_trans c1.lenLe (hpre2 p hp2).1, (hpre2 p hp2).2⟩
    · refine ⟨(hpre1 p hp1).1, ?_⟩
      have hmem : (p.1, p.2) ∈ M1 := by
        rw [hM1]
        exact List.mem_append.mpr (Or.inl hp1)
      exact c2.donePres p.1 p.2 hmem (hpre1 p hp1).2
  · intro s d hmem hd
    have hmem1 : (s, d) ∈ M1 := by
      rw [hM1]
      exact List.mem_append.mpr (Or.inr hmem)
    exact c2.donePres s d hmem1 (c1.donePres s d hmem hd)

/-- A finished entry is untouched by a heap write at another address. -/
theorem DoneEntry.hsetNe {h0 H : Heap} {M : List (Nat × Nat)} {s d b : Nat} {v : PyObj}
    (hd : DoneEntry h0 H M s d) (hne : b ≠ d) :
    DoneEntry h0 (hset H b v) M s d := by
  rcases hd with ⟨xs, hs, hH, hall⟩
  exact ⟨xs, hs, by rw [hget_hset_ne _ hne]; exact hH, hall⟩

/-- The copied element list is exactly the memo-map image of the source
element list. -/
theorem forall₂_memoMap {h0 H : Heap} {M : List (Nat × Nat)} {l rs : List Nat}
    (hpre : MemoPre h0 H M)
    (hf : List.Forall₂ (fun x r => (isAtomAt h0 x ∧ r = x) ∨ mlookup M x = some r) l rs) :
    rs = l.map (memoMap M) := by
  induction hf with
  | nil => simp
  | cons hrel _ ih =>
    rename_i x r l' rs'
    rcases hrel with ⟨⟨n, hn⟩, rfl⟩ | hsome
    · have hnone : mlookup M x = none := by
        by_contra hc
        have hs : (mlookup M x).isSome := by
          cases hmx : mlookup M x with
          | none => exact absurd hmx hc
          | some v => simp
        rcases List.mem_map.mp (mlookup_isSome_key hs) with ⟨p, hp, hp1⟩
        rcases (hpre.keys p hp).2.1 with ⟨xs, hxs⟩
        rw [hp1, hn] at hxs
        cases hxs
      simp [memoMap, hnone, ih]
    · simp [memoMap, hsome, ih]

theorem forall₂_mem_left {α β : Type} {rel : α → β → Prop} {l : List α} {rs : List β}
    (hf : List.Forall₂ rel l rs) : ∀ x ∈ l, ∃ r ∈ rs, rel x r := by
  induction hf with
  | nil => simp
  | cons hrel _ ih =>
    intro x hx
    rcases List.mem_cons.mp hx with rfl | hx'
    · exact ⟨_, List.mem_cons_self _ _, hrel⟩
    · rcases ih x hx' with ⟨r, hr, hrel'⟩
      exact ⟨r, List.mem_cons_of_mem _ hr, hrel'⟩

/-- The per-element result clause survives a fresh-key memo extension. -/
theorem resultClause_mono {h0 H : Heap} {M1 M pre : List (Nat × Nat)} {x r : Nat}
    (hres : (isAtomAt h0 x ∧ r = x) ∨ mlookup M1 x = some r)
    (hpre : MemoPre h0 H M) (hM : M = pre ++ M1) :
    (isAtomAt h0 x ∧ r = x) ∨ mlookup M x = some r := by
  rcases hres with h1 | h1
  · exact Or.inl h1
  · right
    have hkey : x ∈ M1.map Prod.fst :=
      mlookup_isSome_key (by simp [h1])
    have hnot : x ∉ pre.map Prod.fst := by
      have := hpre.nodupKeys
      rw [hM, List.map_append] at this
      exact fun hc => (List.disjoint_of_nodup_append this) hc hkey
    rw [hM, mlookup_append_of_not_key hnot]
    exact h1

/-- Full specification of one `deepcopyAddr` call: the state moves by a
`CopyStep`, and the result is the source itself for an atom, else the
memoized copy address. -/
def AddrSpecP (fuel : Nat) : Prop :=
  ∀ h0 h memo a H M r, heapWFb h0 = true →
    deepcopyAddr fuel h memo a = .ok (H, M, r) →
    MemoPre h0 h memo → a < h0.length →
    CopyStep h0 h memo H M ∧ ((isAtomAt h0 a ∧ r = a) ∨ mlookup M a = some r)

/-- Full specification of one `deepcopyElems` call. -/
def ElemsSpecP (fuel : Nat) : Prop :=
  ∀ h0 h memo l H M rs, heapWFb h0 = true →
    deepcopyElems fuel h memo l = .ok (H, M, rs) →
    MemoPre h0 h memo → (∀ x ∈ l, x < h0.length) →
    CopyStep h0 h memo H M ∧
      List.Forall₂ (fun x r => (isAtomAt h0 x ∧ r = x) ∨ mlookup M x = some r) l rs

theorem elemsSpec_of_addrSpec (fuel : Nat) (ha : AddrSpecP fuel) : ElemsSpecP fuel := by
  intro h0 h memo l
  induction l generalizing h memo with
  | nil =>
    intro H M rs hwf hok hpre _
    simp only [deepcopyElems, copyList, Except.ok.injEq, Prod.mk.injEq] at hok
    rcases hok with ⟨rfl, rfl, rfl⟩
    exact ⟨CopyStep.refl hpre, List.Forall₂.nil⟩
  | cons e rest ih =>
    intro H M rs hwf hok hpre hlt
    simp only [deepcopyElems, copyList] at hok
    simp only [deepcopyElems_eq] at hok
    rcases h1 : deepcopyAddr fuel h memo e with e1 | ⟨h1', M1, r1⟩
    · rw [h1] at hok; cases hok
    · rw [h1] at hok; dsimp only at hok
      rcases h2 : deepcopyElems fuel h1' M1 rest with e2 | ⟨h2', M2, rs2⟩
      · rw [h2] at hok; cases hok
      · rw [h2] at hok; dsimp only at hok
        simp only [Except.ok.injEq, Prod.mk.injEq] at hok
        rcases hok with ⟨rfl, rfl, rfl⟩
        obtain ⟨c1, res1⟩ := ha h0 h memo e h1' M1 r1 hwf h1 hpre (hlt e (by simp))
        obtain ⟨c2, f2⟩ := ih h1' M1 _ _ _ hwf h2 c1.memoPre
          (fun x hx => hlt x (List.mem_cons_of_mem _ hx))
        refine ⟨c1.trans c2, ?_⟩
        rcases c2.newDone with ⟨pre2, hM, _⟩
        exact List.Forall₂.cons (resultClause_mono res1 c2.memoPre hM) f2

theorem addrSpec_succ (fuel : Nat) (he : ElemsSpecP fuel) : AddrSpecP (fuel + 1) := by
  intro h0 h memo a H M r hwf hok hpre halt
  simp only [deepcopyAddr] at hok
  simp only [deepcopyElems_eq] at hok
  rcases hga : hget h a with _ | o
  · rw [hga] at hok; cases hok
  · rw [hga] at hok
    cases o with
    | atom n =>
      dsimp only at hok
      simp only [Except.ok.injEq, Prod.mk.injEq] at hok
      rcases hok with ⟨rfl, rfl, rfl⟩
      have hga0 : hget h0 a = some (.atom n) := by
        rw [← hpre.srcPres a halt]; exact hga
      exact ⟨CopyStep.refl hpre, Or.inl ⟨⟨n, hga0⟩, rfl⟩⟩
    | uncopyable => dsimp only at hok; cases hok
    | plist elems =>
      dsimp only at hok
      have hga0 : hget h0 a = some (.plist elems) := by
        rw [← hpre.srcPres a halt]; exact hga
      rcases hml : mlookup memo a with _ | d0
      · -- a is not memoized yet: allocate, copy children, wire up
        rw [hml] at hok; dsimp only at hok
        rcases hrec : deepcopyElems fuel (h ++ [.plist []]) ((a, h.length) :: memo) elems
          with er | ⟨H2, M2, elems'⟩
        · rw [hrec] at hok; cases hok
        · rw [hrec] at hok; dsimp only at hok
          simp only [Except.ok.injEq, Prod.mk.injEq] at hok
          rcases hok with ⟨rfl, rfl, rfl⟩
          have hch : ∀ x ∈ elems, x < h0.length := fun x hx =>
            heapWFb_children hwf hga0 (by simpa [PyObj.children] using hx)
          have hnotkey : a ∉ memo.map Prod.fst := by
            intro hc
            have := key_mlookup_isSome hc
            rw [hml] at this
            simp at this
          have hpre1 : MemoPre h0 (h ++ [.plist []]) ((a, h.length) :: memo) := by
            refine ⟨?_, ?_, ?_, ?_⟩
            · intro i hi
              rw [hget_append_lt (Nat.lt_of_lt_of_le hi hpre.lenLe)]
              exact hpre.srcPres i hi
            · have := hpre.lenLe
              simp
              omega
            · intro p hp
              rcases List.mem_cons.mp hp with rfl | hpm
              · refine ⟨halt, ⟨elems, hga0⟩, hpre.lenLe, by simp⟩
              · have hk := hpre.keys p hpm
                refine ⟨hk.1, hk.2.1, hk.2.2.1, ?_⟩
                simp
                omega
            · simp only [List.map_cons, List.nodup_cons]
              exact ⟨hnotkey, hpre.nodupKeys⟩
          obtain ⟨c2, f2⟩ := he h0 (h ++ [.plist []]) ((a, h.length) :: memo) elems
            H2 M2 elems' hwf hrec hpre1 hch
          rcases c2.newDone with ⟨pre2, hM2, hpre2⟩
          have hd_lt_H2 : h.length < H2.length := by
            have := c2.lenLe
        -- (h ++ [plist []]).length = h.length + 1
            simp at this
            omega
          have hmemad : (a, h.length) ∈ M2 := by
            rw [hM2]
            exact List.mem_append.mpr (Or.inr (List.mem_cons_self _ _))
          have hlookupM2 : mlookup M2 a = some h.length :=
            mem_mlookup_of_nodup c2.memoPre.nodupKeys hmemad
          have helems' : elems' = elems.map (memoMap M2) := forall₂_memoMap c2.memoPre f2
          have hchildclause : ∀ x ∈ elems, (mlookup M2 x).isSome ∨ isAtomAt h0 x := by
            intro x hx
            rcases forall₂_mem_left f2 x hx with ⟨rr, _, hrel⟩
            rcases hrel with ⟨hat, _⟩ | hsome
            · exact Or.inr hat
            · exact Or.inl (by simp [hsome])
          have hdoneAD : DoneEntry h0 (hset H2 h.length (.plist elems')) M2 a h.length := by
            refine ⟨elems, hga0, ?_, hchildclause⟩
            rw [hget_hset_self _ hd_lt_H2, helems']
          have hkeepFinal : ∀ i, i < h.length →
              hget (hset H2 h.length (.plist elems')) i = hget h i := by
            intro i hi
            rw [hget_hset_ne _ (by omega)]
            rw [c2.keep i (by simp; omega)]
            exact hget_append_lt hi
          have hmemoPreFinal : MemoPre h0 (hset H2 h.length (.plist elems')) M2 := by
            refine ⟨?_, ?_, ?_, c2.memoPre.nodupKeys⟩
            · intro i hi
              rw [hget_hset_ne _ (by have := hpre.lenLe; omega)]
              exact c2.memoPre.srcPres i hi
            · rw [hset_length]
              exact c2.memoPre.lenLe
            · intro p hp
              have hk := c2.memoPre.keys p hp
              rw [hset_length]
              exact hk
          refine ⟨⟨hmemoPreFinal, hkeepFinal, ?_, ?_, ?_⟩, Or.inr hlookupM2⟩
          · rw [hset_length]
            have := c2.lenLe
            simp at this
            omega
          · refine ⟨pre2 ++ [(a, h.length)], by rw [hM2]; simp, ?_⟩
            intro p hp
            rcases List.mem_append.mp hp with hp2 | hpa
            · have h2 := hpre2 p hp2
              have hbound : h.length ≤ p.2 := by
                have := h2.1
                simp at this
                omega
              refine ⟨hbound, ?_⟩
              refine DoneEntry.hsetNe h2.2 ?_
              have := h2.1
              simp at this
              omega
            · have hpa' : p = (a, h.length) := by simpa using hpa
              subst hpa'
              exact ⟨Nat.le_refl _, hdoneAD⟩
          · intro s d' hmem hdone
            have hstep1 : DoneEntry h0 (h ++ [.plist []]) ((a, h.length) :: memo) s d' := by
              refine DoneEntry.mono hdone hpre hpre1
                (fun i hi => hget_append_lt hi) ⟨[(a, h.length)], rfl⟩ ?_
              exact (hpre.keys (s, d') hmem).2.2.2
            have hstep2 : DoneEntry h0 H2 M2 s d' :=
              c2.donePres s d' (List.mem_cons_of_mem _ hmem) hstep1
            refine DoneEntry.hsetNe hstep2 ?_
            have := (hpre.keys (s, d') hmem).2.2.2
            omega
      · -- memo hit
        rw [hml] at hok; dsimp only at hok
        simp only [Except.ok.injEq, Prod.mk.injEq] at hok
        rcases hok with ⟨rfl, rfl, rfl⟩
        exact ⟨CopyStep.refl hpre, Or.inr hml⟩

theorem addrSpec : ∀ fuel, AddrSpecP fuel
  | 0 => by
    intro h0 h memo a H M r _ hok _ _
    simp [deepcopyAddr] at hok
  | fuel + 1 => addrSpec_succ fuel (elemsSpec_of_addrSpec fuel (addrSpec fuel))

theorem elemsSpec (fuel : Nat) : ElemsSpecP fuel :=
  elemsSpec_of_addrSpec fuel (addrSpec fuel)

/-! ## From finished memo entries to deep structural equality -/

theorem zip_self_map {α β : Type} (f : α → β) (l : List α) :
    List.zip l (l.map f) = l.map (fun x => (x, f x)) := by
  induction l with
  | nil => rfl
  | cons x t ih => simp [ih]

theorem zip_map_same {α β : Type} (f : α → β) (l : List α) :
    List.zip (l.map f) (l.map f) = l.map (fun x => (f x, f x)) := by
  induction l with
  | nil => rfl
  | cons x t ih => simp [ih]

theorem structEq_atom {n : Nat} {h1 h2 : Heap} {x y : Nat} {m : Int}
    (hx : hget h1 x = some (.atom m)) (hy : hget h2 y = some (.atom m)) :
    structEq n h1 x h2 y = true := by
  cases n with
  | zero => rfl
  | succ n => simp [structEq, hx, hy]

theorem mlookup_none_of_atom {h0 H : Heap} {M : List (Nat × Nat)} {x : Nat}
    (hpre : MemoPre h0 H M) (hx : isAtomAt h0 x) : mlookup M x = none := by
  rcases hx with ⟨m, hm⟩
  by_contra hc
  have hs : (mlookup M x).isSome := by
    cases hmx : mlookup M x with
    | none => exact absurd hmx hc
    | some v => simp
  rcases List.mem_map.mp (mlookup_isSome_key hs) with ⟨p, hp, hp1⟩
  rcases (hpre.keys p hp).2.1 with ⟨xs, hxs⟩
  rw [hp1, hm] at hxs
  cases hxs

/-- Every finished memo entry's copy is deep-structurally equal to its
source, at every depth (so also for cyclic graphs). -/
theorem structEq_done {h0 H : Heap} {M : List (Nat × Nat)}
    (hpre : MemoPre h0 H M) (hdone : ∀ p ∈ M, DoneEntry h0 H M p.1 p.2) :
    ∀ n s d, (s, d) ∈ M → structEq n H s H d = true := by
  intro n
  induction n with
  | zero => intro s d _; rfl
  | succ n ih =>
    intro s d hmem
    obtain ⟨xs, hs0, hd, hall⟩ := hdone (s, d) hmem
    have hslt : s < h0.length := (hpre.keys (s, d) hmem).1
    have hsH : hget H s = some (.plist xs) := by
      rw [hpre.srcPres s hslt]; exact hs0
    simp only [structEq, hsH, hd, List.length_map, beq_self_eq_true, Bool.true_and,
      zip_self_map, List.all_eq_true]
    intro p hp
    rcases List.mem_map.mp hp with ⟨x, hx, rfl⟩
    dsimp only
    rcases hall x hx with hsome | hat
    · rcases Option.isSome_iff_exists.mp hsome with ⟨v, hv⟩
      have : memoMap M x = v := by simp [memoMap, hv]
      rw [this]
      exact ih x v (mlookup_some_mem hv)
    · rcases hat with ⟨m, hm⟩
      have hxmap : memoMap M x = x := by
        simp [memoMap, mlookup_none_of_atom hpre ⟨m, hm⟩]
      rw [hxmap]
      have hxH : hget H x = some (.atom m) := by
        rw [hpre.srcPres x (hget_lt_length hm)]; exact hm
      exact structEq_atom hxH hxH

/-- Overwriting a source container (a mutation of an original object)
does not change the deep structure of any finished copy: the copy only
reaches fresh containers and original atoms. -/
theorem structEq_hset_done {h0 H : Heap} {M : List (Nat × Nat)} {b : Nat} {v : PyObj}
    (hpre : MemoPre h0 H M) (hdone : ∀ p ∈ M, DoneEntry h0 H M p.1 p.2)
    (hb : b < h0.length) (hbc : ∃ zs, hget h0 b = some (.plist zs)) :
    ∀ n s d, (s, d) ∈ M → structEq n (hset H b v) d H d = true := by
  intro n
  induction n with
  | zero => intro s d _; rfl
  | succ n ih =>
    intro s d hmem
    obtain ⟨xs, hs0, hd, hall⟩ := hdone (s, d) hmem
    have hdge : h0.length ≤ d := (hpre.keys (s, d) hmem).2.2.1
    have hdset : hget (hset H b v) d = hget H d := hget_hset_ne _ (by omega)
    simp only [structEq, hdset, hd, List.length_map, beq_self_eq_true, Bool.true_and,
      zip_map_same, List.all_eq_true]
    intro p hp
    rcases List.mem_map.mp hp with ⟨x, hx, rfl⟩
    dsimp only
    rcases hall x hx with hsome | hat
    · rcases Option.isSome_iff_exists.mp hsome with ⟨w, hw⟩
      have hmap : memoMap M x = w := by simp [memoMap, hw]
      rw [hmap]
      exact ih x w (mlookup_some_mem hw)
    · rcases hat with ⟨m, hm⟩
      have hxmap : memoMap M x = x := by
        simp [memoMap, mlookup_none_of_atom hpre ⟨m, hm⟩]
      rw [hxmap]
      have hxH : hget H x = some (.atom m) := by
        rw [hpre.srcPres x (hget_lt_length hm)]; exact hm
      have hxne : x ≠ b := by
        intro hc
        rcases hbc with ⟨zs, hzs⟩
        rw [hc, hzs] at hm
        cases hm
      have hxset : hget (hset H b v) x = some (.atom m) := by
        rw [hget_hset_ne _ (fun hc => hxne hc.symm)]
        exact hxH
      exact structEq_atom hxset hxH

/-- Top-level correctness of one `copy.deepcopy(inputs)` call on a fresh
inputs list (empty memo): source entries are preserved, and each output
is deep-equal to its input — the input itself for an atom, a fresh
memoized copy for a container. -/
theorem deepcopyElems_correct {fuel : Nat} {h0 H : Heap} {M : List (Nat × Nat)}
    {roots rs : List Nat} (hwf : heapWFb h0 = true)
    (hroots : ∀ x ∈ roots, x < h0.length)
    (hok : deepcopyElems fuel h0 [] roots = .ok (H, M, rs)) :
    (∀ i, i < h0.length → hget H i = hget h0 i) ∧
      List.Forall₂ (fun x r =>
        (∀ n, structEq n H x H r = true) ∧
        ((isAtomAt h0 x ∧ r = x) ∨ (h0.length ≤ r ∧ mlookup M x = some r))) roots rs := by
  have hpre0 : MemoPre h0 h0 [] :=
    ⟨fun _ _ => rfl, Nat.le_refl _, by simp, by simp⟩
  obtain ⟨c, hf⟩ := elemsSpec fuel h0 h0 [] roots H M rs hwf hok hpre0 hroots
  have hdone : ∀ p ∈ M, DoneEntry h0 H M p.1 p.2 := by
    rcases c.newDone with ⟨pre, hM, hpre⟩
    rw [List.append_nil] at hM
    subst hM
    intro p hp
    exact (hpre p hp).2
  have hkeep : ∀ i, i < h0.length → hget H i = hget h0 i := fun i hi =>
    c.keep i (Nat.lt_of_lt_of_le hi (Nat.le_refl _))
  refine ⟨hkeep, ?_⟩
  refine hf.imp ?_
  intro x r hrel
  rcases hrel with ⟨⟨m, hm⟩, heq⟩ | hsome
  · have hxH : hget H x = some (.atom m) := by
      rw [hkeep x (hget_lt_length hm)]; exact hm
    refine ⟨fun n => ?_, Or.inl ⟨⟨m, hm⟩, heq⟩⟩
    rw [heq]
    exact structEq_atom hxH hxH
  · have hmem := mlookup_some_mem hsome
    refine ⟨fun n => structEq_done c.memoPre hdone n x r hmem,
      Or.inr ⟨(c.memoPre.keys (x, r) hmem).2.2.1, hsome⟩⟩

/-- Top-level correctness of one `copy.deepcopy(obj)` call (the strict
path): the result deep-equals the source, and mutating any original
container afterwards does not change the result's deep structure. -/
theorem deepcopyAddr_correct {fuel : Nat} {h0 H : Heap} {M : List (Nat × Nat)}
    {a r : Nat} (hwf : heapWFb h0 = true) (ha : a < h0.length)
    (hok : deepcopyAddr fuel h0 [] a = .ok (H, M, r)) :
    (∀ i, i < h0.length → hget H i = hget h0 i) ∧
      (∀ n, structEq n H a H r = true) ∧
      (∀ b v, b < h0.length → (∃ zs, hget h0 b = some (.plist zs)) →
        ∀ n, structEq n (hset H b v) r H r = true) := by
  have hpre0 : MemoPre h0 h0 [] :=
    ⟨fun _ _ => rfl, Nat.le_refl _, by simp, by simp⟩
  obtain ⟨c, hres⟩ := addrSpec fuel h0 h0 [] a H M r hwf hok hpre0 ha
  have hdone : ∀ p ∈ M, DoneEntry h0 H M p.1 p.2 := by
    rcases c.newDone with ⟨pre, hM, hpre⟩
    rw [List.append_nil] at hM
    subst hM
    intro p hp
    exact (hpre p hp).2
  have hkeep : ∀ i, i < h0.length → hget H i = hget h0 i := fun i hi => c.keep i hi
  refine ⟨hkeep, ?_, ?_⟩
  · rcases hres with ⟨⟨m, hm⟩, heq⟩ | hsome
    · have hxH : hget H a = some (.atom m) := by
        rw [hkeep a ha]; exact hm
      intro n
      rw [heq]
      exact structEq_atom hxH hxH
    · exact fun n => structEq_done c.memoPre hdone n a r (mlookup_some_mem hsome)
  · intro b v hb hbc
    rcases hres with ⟨⟨m, hm⟩, heq⟩ | hsome
    · have hxH : hget H a = some (.atom m) := by
        rw [hkeep a ha]; exact hm
      have hane : a ≠ b := by
        intro hc
        rcases hbc with ⟨zs, hzs⟩
        rw [hc, hzs] at hm
        cases hm
      have hxset : hget (hset H b v) a = some (.atom m) := by
        rw [hget_hset_ne _ (fun hc => hane hc.symm)]
        exact hxH
      intro n
      rw [heq]
      exact structEq_atom hxset hxH
    · exact fun n =>
        structEq_hset_done c.memoPre hdone hb hbc n a r (mlookup_some_mem hsome)

/-! ## Claim theorems -/

/-- C3, counterexample: the claim quantifies over *every* object `x`, but
for an atomic immutable `x` (here the atom at address 0) deferring twice
with `alias=preserve` and resolving yields values that ARE referentially
identical to `x` itself — `copy.deepcopy` returns atoms as-is — refuting
the conjunct "is not referentially identical to x". -/
theorem c3_counterexample_atom_root :
    (let st0 := DeepcopyBatcher.init 64 none .atAccess .preserve
     let h0 : Heap := [.atom 1, .plist [0]]
     let r1 := defer 6 st0 h0 0 none none
     let r2 := defer 6 r1.2.1 r1.2.2.1 0 none none
     let g1 := get 6 r2.2.1 r2.2.2.1 r1.2.2.2
     let g2 := get 6 g1.2.1 g1.2.2.1 r2.2.2.2
     g1.2.2.2 = some 0 ∧ g2.2.2.2 = some 0) := by decide

/-- C3 (amended: restricted to container objects): for every *container*
object `x`, deferring `x` twice with `alias=preserve` (the batcher-wide
default) in the same batch and resolving both handles yields two handles
whose resolved values are referentially identical to each other, and that
shared value deep-equals `x` (at every depth) but is not referentially
identical to `x`. -/
theorem c3_preserve_identity (fuel : Nat) (h0 : Heap) (a : Nat) (xs : List Nat)
    (hwf : heapWFb h0 = true) (ha : hget h0 a = some (.plist xs))
    (st1 : BatcherSt) (hp1 : Heap) (i1 : Nat)
    (h1 : defer fuel (DeepcopyBatcher.init 64 none .atAccess .preserve) h0 a none none =
      (none, st1, hp1, i1))
    (st2 : BatcherSt) (hp2 : Heap) (i2 : Nat)
    (h2 : defer fuel st1 hp1 a none none = (none, st2, hp2, i2))
    (st3 : BatcherSt) (H : Heap) (v1 : Nat)
    (h3 : get fuel st2 hp2 i1 = (none, st3, H, some v1))
    (st4 : BatcherSt) (H2 : Heap) (v2 : Nat)
    (h4 : get fuel st3 H i2 = (none, st4, H2, some v2)) :
    v1 = v2 ∧ (∀ n, structEq n H a H v1 = true) ∧ v1 ≠ a := by
  have e1 : defer fuel (DeepcopyBatcher.init 64 none .atAccess .preserve) h0 a none none =
      (none,
        { handles := [Handle.init],
          queue := [{ handle := 0, obj := a, aliasPol := .preserve }],
          maxItems := 64, maxBytes := none, consistency := .atAccess,
          aliasPol := .preserve, pendingBytes := 0 }, h0, 0) := rfl
  rw [e1] at h1
  simp only [Prod.mk.injEq] at h1
  obtain ⟨-, h1st, h1hp, h1i⟩ := h1
  subst h1st; subst h1hp; subst h1i
  have e2 : defer fuel
      { handles := [Handle.init],
        queue := [{ handle := 0, obj := a, aliasPol := .preserve }],
        maxItems := 64, maxBytes := none, consistency := .atAccess,
        aliasPol := .preserve, pendingBytes := 0 } h0 a none none =
      (none,
        { handles := [Handle.init, Handle.init],
          queue := [{ handle := 0, obj := a, aliasPol := .preserve },
            { handle := 1, obj := a, aliasPol := .preserve }],
          maxItems := 64, maxBytes := none, consistency := .atAccess,
          aliasPol := .preserve, pendingBytes := 0 }, h0, 1) := rfl
  rw [e2] at h2
  simp only [Prod.mk.injEq] at h2
  obtain ⟨-, h2st, h2hp, h2i⟩ := h2
  subst h2st; subst h2hp; subst h2i
  have hb : buildInputs
      [{ handle := 0, obj := a, aliasPol := .preserve },
        { handle := 1, obj := a, aliasPol := .preserve }] [] [] [] = ([a], [0, 0]) := by
    simp [buildInputs, mlookup]
  rw [get] at h3
  rw [if_neg (by simp [handleAt, Handle.init])] at h3
  rw [flush] at h3
  rw [if_neg (by simp)] at h3
  rw [flushLocked] at h3
  rw [if_neg (by simp [aliasIsDuplicate])] at h3
  simp only [hb] at h3
  rcases hcp : deepcopyElems fuel h0 [] [a] with er | ⟨H', M, outs⟩ <;> rw [hcp] at h3
  · simp at h3
  · have hlen : outs.length = 1 := by simpa using deepcopyElems_length hcp
    rcases List.length_eq_one.mp hlen with ⟨r, rfl⟩
    simp only [List.map_cons, List.map_nil, List.zip_cons_cons, List.zip_nil_right,
      List.getD, fanOut, List.foldl_cons, List.foldl_nil] at h3
    simp only [Prod.mk.injEq] at h3
    obtain ⟨-, h3st, h3H, h3v⟩ := h3
    subst h3H
    simp only [handleAt, List.set, List.getD, List.get?, Option.getD_some] at h3v
    have hv1 : v1 = r := by
      simp at h3v
      omega
    have hready : (handleAt st3 1).ready = true ∧ (handleAt st3 1).value = some r := by
      rw [← h3st]
      simp [handleAt, List.set, List.getD]
    rw [get] at h4
    rw [if_pos hready.1] at h4
    simp only [Prod.mk.injEq] at h4
    obtain ⟨-, -, -, h4v⟩ := h4
    have hv2 : v2 = r := by
      rw [hready.2] at h4v
      simpa using h4v.symm
    obtain ⟨hkeep, hf⟩ := deepcopyElems_correct hwf
      (by intro x hx; simp at hx; subst hx; exact hget_lt_length ha) hcp
    rcases List.forall₂_cons.mp hf with ⟨hpair, -⟩
    rcases hpair with ⟨hse, hdisj⟩
    refine ⟨by rw [hv1, hv2], by rw [hv1]; exact hse, ?_⟩
    rcases hdisj with ⟨⟨m, hm⟩, -⟩ | ⟨hge, -⟩
    · rw [ha] at hm; cases hm
    · have halt : a < h0.length := hget_lt_length ha
      omega

/-- Witness for C3 on a concrete heap: `x` is the one-element list at
address 1 of the heap `[atom 1, plist [0]]`. -/
theorem c3_preserve_identity_witness :
    (2 : Nat) = 2 ∧ structEq 5 [.atom 1, .plist [0], .plist [0]] 1
      [.atom 1, .plist [0], .plist [0]] 2 = true ∧ (2 : Nat) ≠ 1 := by
  have h := c3_preserve_identity 6 [.atom 1, .plist [0]] 1 [0] (by decide) (by decide)
    { handles := [Handle.init],
      queue := [{ handle := 0, obj := 1, aliasPol := .preserve }],
      maxItems := 64, maxBytes := none, consistency := .atAccess,
      aliasPol := .preserve, pendingBytes := 0 } [.atom 1, .plist [0]] 0 rfl
    { handles := [Handle.init, Handle.init],
      queue := [{ handle := 0, obj := 1, aliasPol := .preserve },
        { handle := 1, obj := 1, aliasPol := .preserve }],
      maxItems := 64, maxBytes := none, consistency := .atAccess,
      aliasPol := .preserve, pendingBytes := 0 } [.atom 1, .plist [0]] 1 rfl
    { handles := [{ value := some 2, ready := true }, { value := some 2, ready := true }],
      queue := [], maxItems := 64, maxBytes := none, consistency := .atAccess,
      aliasPol := .preserve, pendingBytes := 0 } [.atom 1, .plist [0], .plist [0]] 2 rfl
    { handles := [{ value := some 2, ready := true }, { value := some 2, ready := true }],
      queue := [], maxItems := 64, maxBytes := none, consistency := .atAccess,
      aliasPol := .preserve, pendingBytes := 0 } [.atom 1, .plist [0], .plist [0]] 2 rfl
  exact ⟨h.1, h.2.1 5, h.2.2⟩

theorem getD_append_length (l : List Handle) (v d : Handle) :
    (l ++ [v]).getD l.length d = v := by
  induction l with
  | nil => simp [List.getD]
  | cons x t ih =>
    simp only [List.cons_append, List.length_cons, List.getD]
    exact ih

/-- `_flush_locked` never changes the configuration fields and never
drops or adds handle cells. -/
theorem flushLocked_preserves_config (fuel : Nat) (st : BatcherSt) (heap : Heap) :
    (flushLocked fuel st heap).2.1.maxItems = st.maxItems ∧
    (flushLocked fuel st heap).2.1.maxBytes = st.maxBytes ∧
    (flushLocked fuel st heap).2.1.consistency = st.consistency ∧
    (flushLocked fuel st heap).2.1.aliasPol = st.aliasPol ∧
    (flushLocked fuel st heap).2.1.handles.length = st.handles.length := by
  unfold flushLocked
  by_cases hall : st.queue.all (fun e => aliasIsDuplicate e.aliasPol)
  · rw [if_pos hall]
    rcases hq : deepcopyElems fuel heap [] (st.queue.map (fun e => e.obj)) with
      e | ⟨h2, m2, outs⟩ <;> simp [hq, fanOut_length]
  · rw [if_neg hall]
    rcases hq : deepcopyElems fuel heap [] (buildInputs st.queue [] [] []).1 with
      e | ⟨h2, m2, outs⟩ <;> simp [hq, fanOut_length]

/-- `defer` under `strict` consistency: synchronous copy, no queue entry. -/
theorem defer_strict_path (fuel : Nat) (st : BatcherSt) (heap : Heap) (obj : Nat)
    (aliasArg : Option Alias) :
    defer fuel st heap obj (some .strict) aliasArg =
      (match deepcopyAddr fuel heap [] obj with
       | .error e => (some e, st, heap, st.handles.length)
       | .ok (heap', _, addr) =>
         (none,
           { st with handles := st.handles ++ [{ value := some addr, ready := true }] },
           heap', st.handles.length)) := by
  rw [defer]
  rw [if_pos (by simp)]

/-- `defer` under effective `at_access` consistency when the appended
queue does not hit a threshold: append a pending entry, no flush. -/
theorem defer_no_flush_path (fuel : Nat) (st : BatcherSt) (heap : Heap) (obj : Nat)
    (aliasArg : Option Alias) (hcons : st.consistency = .atAccess)
    (hsf : shouldFlushLocked
      { st with
          handles := st.handles ++ [Handle.init],
          queue := st.queue ++
            [{ handle := st.handles.length, obj := obj,
               aliasPol := aliasArg.getD st.aliasPol }] } = false) :
    defer fuel st heap obj none aliasArg =
      (none,
        { st with
            handles := st.handles ++ [Handle.init],
            queue := st.queue ++
              [{ handle := st.handles.length, obj := obj,
                 aliasPol := aliasArg.getD st.aliasPol }] },
        heap, st.handles.length) := by
  rw [defer]
  rw [if_neg (by simp [hcons])]
  simp only [hsf]
  simp

/-- `defer` under effective `at_access` consistency when the appended
queue hits a threshold: append a pending entry, then flush before
returning, propagating the flush's outcome. -/
theorem defer_flush_path (fuel : Nat) (st : BatcherSt) (heap : Heap) (obj : Nat)
    (aliasArg : Option Alias) (hcons : st.consistency = .atAccess)
    (hsf : shouldFlushLocked
      { st with
          handles := st.handles ++ [Handle.init],
          queue := st.queue ++
            [{ handle := st.handles.length, obj := obj,
               aliasPol := aliasArg.getD st.aliasPol }] } = true) :
    defer fuel st heap obj none aliasArg =
      ((flushLocked fuel
          { st with
              handles := st.handles ++ [Handle.init],
              queue := st.queue ++
                [{ handle := st.handles.length, obj := obj,
                   aliasPol := aliasArg.getD st.aliasPol }] } heap).1,
       (flushLocked fuel
          { st with
              handles := st.handles ++ [Handle.init],
              queue := st.queue ++
                [{ handle := st.handles.length, obj := obj,
                   aliasPol := aliasArg.getD st.aliasPol }] } heap).2.1,
       (flushLocked fuel
          { st with
              handles := st.handles ++ [Handle.init],
              queue := st.queue ++
                [{ handle := st.handles.length, obj := obj,
                   aliasPol := aliasArg.getD st.aliasPol }] } heap).2.2,
       st.handles.length) := by
  rw [defer]
  rw [if_neg (by simp [hcons])]
  simp only [hsf]
  rcases hfl : flushLocked fuel
    { st with
        handles := st.handles ++ [Handle.init],
        queue := st.queue ++
          [{ handle := st.handles.length, obj := obj,
             aliasPol := aliasArg.getD st.aliasPol }] } heap with ⟨e?, st2, h2⟩
  simp

/-- C1, code-bug exhibit: `x` is the one-element list at address 1 of the
heap `[atom 1, plist [0]]`.  Deferring `x` twice with `alias=duplicate`
and flushing resolves BOTH handles to the same copy (address 2): the
flush passes `[x, x]` to one `copy.deepcopy` call, whose per-call memo
maps the second occurrence to the first copy.  This contradicts the
claimed "never referentially identical to each other" (and the source's
own `test_alias_duplicate`, which asserts `assertIsNot`). -/
theorem c1_duplicate_shares_instance :
    (let st0 := DeepcopyBatcher.init 64 none .atAccess .preserve
     let h0 : Heap := [.atom 1, .plist [0]]
     let r1 := defer 6 st0 h0 1 none (some .duplicate)
     let r2 := defer 6 r1.2.1 r1.2.2.1 1 none (some .duplicate)
     let f := flush 6 r2.2.1 r2.2.2.1
     let g1 := get 6 f.2.1 f.2.2 r1.2.2.2
     let g2 := get 6 g1.2.1 g1.2.2.1 r2.2.2.2
     g1.1 = none ∧ g1.2.2.2 = some 2 ∧ g2.2.2.2 = some 2 ∧ g1.2.2.2 = g2.2.2.2 ∧
       structEq 5 g1.2.2.1 1 g1.2.2.1 2 = true ∧ (2 : Nat) ≠ 1) := by decide

/-- C2, code-bug exhibit: A is the list at address 2, B the list at
address 3.  In a mixed batch (A `preserve`, B `duplicate`, A `preserve`,
B `duplicate`) one flush resolves A's entries to one shared copy
(address 4, as claimed) but ALSO resolves B's two `duplicate` entries to
one shared copy (address 5): the single `copy.deepcopy` call on the
mixed inputs list memoizes B's identity across its two slots.  This
contradicts the claimed pairwise-distinct outputs for B (and the
source's `test_mixed_alias_policy_in_batch`).  A's and B's outputs do
not alias each other (4 ≠ 5). -/
theorem c2_mixed_duplicate_shares_instance :
    (let st0 := DeepcopyBatcher.init 64 none .atAccess .preserve
     let h0 : Heap := [.atom 100, .atom 200, .plist [0], .plist [1]]
     let rA1 := defer 8 st0 h0 2 none none
     let rB1 := defer 8 rA1.2.1 rA1.2.2.1 3 none (some .duplicate)
     let rA2 := defer 8 rB1.2.1 rB1.2.2.1 2 none none
     let rB2 := defer 8 rA2.2.1 rA2.2.2.1 3 none (some .duplicate)
     let f := flush 8 rB2.2.1 rB2.2.2.1
     let gA1 := get 8 f.2.1 f.2.2 rA1.2.2.2
     let gB1 := get 8 gA1.2.1 gA1.2.2.1 rB1.2.2.2
     let gA2 := get 8 gB1.2.1 gB1.2.2.1 rA2.2.2.2
     let gB2 := get 8 gA2.2.1 gA2.2.2.1 rB2.2.2.2
     gA1.2.2.2 = some 4 ∧ gA2.2.2.2 = some 4 ∧
       gB1.2.2.2 = some 5 ∧ gB2.2.2.2 = some 5 ∧ gB1.2.2.2 = gB2.2.2.2 ∧
       (4 : Nat) ≠ 5) := by decide

/-- C4, counterexample: a batch holding an uncopyable root (address 0)
and an unrelated copyable root (address 1).  The flush fails and the
error surfaces, but the queue is NOT cleared — both pending entries,
including the one unrelated to the failing root, are still queued and
their handles untouched — refuting "the Batcher's queue is cleared as
part of that failure". -/
theorem c4_failed_flush_keeps_queue :
    (let st0 := DeepcopyBatcher.init 64 none .atAccess .preserve
     let h0 : Heap := [.uncopyable, .plist []]
     let r1 := defer 6 st0 h0 0 none none
     let r2 := defer 6 r1.2.1 r1.2.2.1 1 none none
     let f := flush 6 r2.2.1 r2.2.2.1
     f.1 = some .uncopyable ∧ f.2.1 = r2.2.1 ∧ f.2.1.queue.length = 2 ∧
       (handleAt f.2.1 0).ready = false ∧ (handleAt f.2.1 1).ready = false) := by decide

/-- C4 (amended): when the Deep-Copy Primitive fails during a flush, the
error surfaces to whichever caller triggered the flush (`flush` or
`get`), but the batcher state is left exactly as it was: the queue keeps
every pending entry (it is not cleared) and no handle is modified; the
propagated error is the raw copy error (the code defines no separate
validation-error taxonomy). -/
theorem c4_error_surfaces_queue_intact (fuel : Nat) (st : BatcherSt) (heap : Heap)
    (e : CopyErr) (st' : BatcherSt) (heap' : Heap)
    (h : flushLocked fuel st heap = (some e, st', heap')) :
    st' = st ∧ heap' = heap ∧
      (st.queue.isEmpty = false → flush fuel st heap = (some e, st, heap)) ∧
      (∀ i, (handleAt st i).ready = false → st.queue.isEmpty = false →
        get fuel st heap i = (some e, st, heap, none)) := by
  obtain ⟨hst, hheap⟩ := flushLocked_error_unchanged h
  rw [hst, hheap] at h
  have hflush : st.queue.isEmpty = false → flush fuel st heap = (some e, st, heap) := by
    intro hne
    rw [flush, if_neg (by simp [hne])]
    exact h
  refine ⟨hst, hheap, hflush, ?_⟩
  intro i hready hne
  rw [get]
  rw [if_neg (by simp [hready])]
  rw [hflush hne]

/-- Witness for C4 on a concrete state: one pending entry whose root is
the uncopyable object at address 0. -/
theorem c4_error_surfaces_queue_intact_witness :
    flush 3
      { handles := [Handle.init],
        queue := [{ handle := 0, obj := 0, aliasPol := .preserve }],
        maxItems := 64, maxBytes := none, consistency := .atAccess,
        aliasPol := .preserve, pendingBytes := 0 } [.uncopyable] =
      (some .uncopyable,
        { handles := [Handle.init],
          queue := [{ handle := 0, obj := 0, aliasPol := .preserve }],
          maxItems := 64, maxBytes := none, consistency := .atAccess,
          aliasPol := .preserve, pendingBytes := 0 }, [.uncopyable]) ∧
    get 3
      { handles := [Handle.init],
        queue := [{ handle := 0, obj := 0, aliasPol := .preserve }],
        maxItems := 64, maxBytes := none, consistency := .atAccess,
        aliasPol := .preserve, pendingBytes := 0 } [.uncopyable] 0 =
      (some .uncopyable,
        { handles := [Handle.init],
          queue := [{ handle := 0, obj := 0, aliasPol := .preserve }],
          maxItems := 64, maxBytes := none, consistency := .atAccess,
          aliasPol := .preserve, pendingBytes := 0 }, [.uncopyable], none) := by
  have h := c4_error_surfaces_queue_intact 3
    { handles := [Handle.init],
      queue := [{ handle := 0, obj := 0, aliasPol := .preserve }],
      maxItems := 64, maxBytes := none, consistency := .atAccess,
      aliasPol := .preserve, pendingBytes := 0 } [.uncopyable] .uncopyable
    { handles := [Handle.init],
      queue := [{ handle := 0, obj := 0, aliasPol := .preserve }],
      maxItems := 64, maxBytes := none, consistency := .atAccess,
      aliasPol := .preserve, pendingBytes := 0 } [.uncopyable] (by decide)
  exact ⟨h.2.2.1 (by decide), h.2.2.2 0 (by decide) (by decide)⟩

/-- C5: a flush is all-or-nothing with respect to handle resolution.  If
it fails, the state and heap are unchanged: no handle is marked ready and
no handle's value changes.  If it succeeds, the queue is emptied and
every handle that was queued is marked ready holding a resolved value. -/
theorem c5_flush_all_or_nothing (fuel : Nat) (st : BatcherSt) (heap : Heap)
    (hr : ∀ e ∈ st.queue, e.handle < st.handles.length) :
    (∀ e st' heap', flush fuel st heap = (some e, st', heap') →
      st' = st ∧ heap' = heap) ∧
    (∀ st' heap', flush fuel st heap = (none, st', heap') →
      st'.queue = [] ∧
      ∀ e ∈ st.queue, (handleAt st' e.handle).ready = true ∧
        ((handleAt st' e.handle).value).isSome = true) := by
  by_cases hq : st.queue.isEmpty
  · constructor
    · intro e st' heap' h
      rw [flush, if_pos hq] at h
      cases h
    · intro st' heap' h
      rw [flush, if_pos hq] at h
      simp only [Prod.mk.injEq] at h
      constructor
      · rw [← h.2.1]
        exact List.isEmpty_iff.mp hq
      · intro e he
        rw [List.isEmpty_iff.mp hq] at he
        cases he
  · constructor
    · intro e st' heap' h
      rw [flush, if_neg hq] at h
      exact flushLocked_error_unchanged h
    · intro st' heap' h
      rw [flush, if_neg hq] at h
      obtain ⟨h1, -, h2⟩ := flushLocked_ok_resolves hr h
      exact ⟨h1, h2⟩

/-- Witness for C5 on a concrete two-entry batch (success half) and on a
concrete failing batch (failure half). -/
theorem c5_flush_all_or_nothing_witness :
    ((handleAt
      (flush 6
        { handles := [Handle.init, Handle.init],
          queue := [{ handle := 0, obj := 1, aliasPol := .preserve },
            { handle := 1, obj := 1, aliasPol := .duplicate }],
          maxItems := 64, maxBytes := none, consistency := .atAccess,
          aliasPol := .preserve, pendingBytes := 0 } [.atom 1, .plist [0]]).2.1 0).ready =
      true) ∧
    (flush 6
      { handles := [Handle.init],
        queue := [{ handle := 0, obj := 0, aliasPol := .preserve }],
        maxItems := 64, maxBytes := none, consistency := .atAccess,
        aliasPol := .preserve, pendingBytes := 0 } [.uncopyable]).2.1 =
      { handles := [Handle.init],
        queue := [{ handle := 0, obj := 0, aliasPol := .preserve }],
        maxItems := 64, maxBytes := none, consistency := .atAccess,
        aliasPol := .preserve, pendingBytes := 0 } := by
  constructor
  · have h := (c5_flush_all_or_nothing 6
      { handles := [Handle.init, Handle.init],
        queue := [{ handle := 0, obj := 1, aliasPol := .preserve },
          { handle := 1, obj := 1, aliasPol := .duplicate }],
        maxItems := 64, maxBytes := none, consistency := .atAccess,
        aliasPol := .preserve, pendingBytes := 0 } [.atom 1, .plist [0]]
      (by decide)).2
    exact (h
      { handles := [{ value := some 2, ready := true }, { value := some 2, ready := true }],
        queue := [], maxItems := 64, maxBytes := none, consistency := .atAccess,
        aliasPol := .preserve, pendingBytes := 0 }
      [.atom 1, .plist [0], .plist [0]] (by decide)
      |>.2 { handle := 0, obj := 1, aliasPol := .preserve } (by decide)).1
  · have h := (c5_flush_all_or_nothing 6
      { handles := [Handle.init],
        queue := [{ handle := 0, obj := 0, aliasPol := .preserve }],
        maxItems := 64, maxBytes := none, consistency := .atAccess,
        aliasPol := .preserve, pendingBytes := 0 } [.uncopyable] (by decide)).1
    exact (h .uncopyable
      { handles := [Handle.init],
        queue := [{ handle := 0, obj := 0, aliasPol := .preserve }],
        maxItems := 64, maxBytes := none, consistency := .atAccess,
        aliasPol := .preserve, pendingBytes := 0 } [.uncopyable] (by decide)).1

/-- C6, counterexample: constructing a Batcher with `max_items = 0`
(an invalid configuration per the claim) succeeds and returns an ordinary
batcher state — `__init__` performs no validation — and its first use
also succeeds (the out-of-range threshold merely makes the first
non-strict `defer` flush immediately, returning a ready handle). -/
theorem c6_invalid_config_accepted :
    DeepcopyBatcher.init 0 none .atAccess .preserve =
      { handles := [], queue := [], maxItems := 0, maxBytes := none,
        consistency := .atAccess, aliasPol := .preserve, pendingBytes := 0 } ∧
    (let r := defer 6 (DeepcopyBatcher.init 0 none .atAccess .preserve)
      [.atom 1, .plist [0]] 1 none none
     r.1 = none ∧ (handleAt r.2.1 r.2.2.2).ready = true ∧ r.2.1.queue = []) := by
  decide

/-- A successful non-strict `defer` whose appended queue reaches the
`max_items` threshold performs the flush before returning: afterwards
the queue is empty and every handle that was queued — including the one
just created — is ready. -/
theorem defer_autoflush_resolves (fuel : Nat) (st : BatcherSt) (heap : Heap) (obj : Nat)
    (aliasArg : Option Alias) (st' : BatcherSt) (heap' : Heap) (i : Nat)
    (hcons : st.consistency = .atAccess)
    (hr : ∀ e ∈ st.queue, e.handle < st.handles.length)
    (hlen : (st.queue.length : Int) + 1 ≥ st.maxItems)
    (h : defer fuel st heap obj none aliasArg = (none, st', heap', i)) :
    st'.queue = [] ∧ i = st.handles.length ∧
      (handleAt st' i).ready = true ∧
      (∀ e ∈ st.queue, (handleAt st' e.handle).ready = true) ∧
      st'.maxItems = st.maxItems ∧ st'.maxBytes = st.maxBytes ∧
      st'.consistency = st.consistency ∧ st'.aliasPol = st.aliasPol ∧
      st'.handles.length = st.handles.length + 1 := by
  have hsf : shouldFlushLocked
      { st with
          handles := st.handles ++ [Handle.init],
          queue := st.queue ++
            [{ handle := st.handles.length, obj := obj,
               aliasPol := aliasArg.getD st.aliasPol }] } = true := by
    simp only [shouldFlushLocked]
    split
    · rfl
    · rename_i hc
      exfalso
      simp at hc
      omega
  rw [defer_flush_path fuel st heap obj aliasArg hcons hsf] at h
  simp only [Prod.mk.injEq] at h
  obtain ⟨h1, h2, h3, h4⟩ := h
  have hfl : flushLocked fuel
      { st with
          handles := st.handles ++ [Handle.init],
          queue := st.queue ++
            [{ handle := st.handles.length, obj := obj,
               aliasPol := aliasArg.getD st.aliasPol }] } heap = (none, st', heap') := by
    rw [← h1, ← h2, ← h3]
  have hrApp : ∀ e ∈ ({ st with
      handles := st.handles ++ [Handle.init],
      queue := st.queue ++
        [{ handle := st.handles.length, obj := obj,
           aliasPol := aliasArg.getD st.aliasPol }] } : BatcherSt).queue,
      e.handle < ({ st with
        handles := st.handles ++ [Handle.init],
        queue := st.queue ++
          [{ handle := st.handles.length, obj := obj,
             aliasPol := aliasArg.getD st.aliasPol }] } : BatcherSt).handles.length := by
    intro e he
    simp only [List.mem_append, List.mem_singleton] at he
    simp only [List.length_append, List.length_cons, List.length_nil]
    rcases he with he | he
    · exact Nat.lt_succ_of_lt (hr e he)
    · subst he
      simp
  obtain ⟨hq, -, hready⟩ := flushLocked_ok_resolves hrApp hfl
  have hcfg := flushLocked_preserves_config fuel
    { st with
        handles := st.handles ++ [Handle.init],
        queue := st.queue ++
          [{ handle := st.handles.length, obj := obj,
             aliasPol := aliasArg.getD st.aliasPol }] } heap
  rw [hfl] at hcfg
  refine ⟨hq, h4.symm, ?_, ?_, ?_, ?_, ?_, ?_, ?_⟩
  · rw [← h4]
    exact (hready
      { handle := st.handles.length, obj := obj, aliasPol := aliasArg.getD st.aliasPol }
      (List.mem_append.mpr (Or.inr (List.mem_cons_self _ _)))).1
  · intro e he
    exact (hready e (List.mem_append.mpr (Or.inl he))).1
  · exact hcfg.1
  · exact hcfg.2.1
  · exact hcfg.2.2.1
  · exact hcfg.2.2.2.1
  · have := hcfg.2.2.2.2
    simpa using this

/-- C6 (amended): constructing a Batcher with `max_items <= 0` does not
fail — no configuration validation happens at construction time — and
the construction is not followed by misbehaviour at first use either:
the out-of-range threshold makes every successful non-strict `defer`
auto-flush at once, so the returned handle is already ready and the
queue empty. -/
theorem c6_nonpositive_max_items_accepted (m : Int) (hm : m ≤ 0) (maxB : Option Int)
    (al : Alias) (fuel : Nat) (heap : Heap) (obj : Nat)
    (st' : BatcherSt) (heap' : Heap) (i : Nat)
    (h : defer fuel (DeepcopyBatcher.init m maxB .atAccess al) heap obj none none =
      (none, st', heap', i)) :
    (handleAt st' i).ready = true ∧ st'.queue = [] ∧ i = 0 := by
  obtain ⟨hq, hi, hready, -⟩ := defer_autoflush_resolves fuel _ heap obj none st' heap' i
    rfl (by simp [DeepcopyBatcher.init]) (by simp [DeepcopyBatcher.init]; omega) h
  exact ⟨hready, hq, by simpa [DeepcopyBatcher.init] using hi⟩

/-- Witness for C6: `max_items = 0`, one defer on a concrete heap. -/
theorem c6_nonpositive_max_items_accepted_witness :
    (handleAt
      { handles := [{ value := some 0, ready := true }], queue := [],
        maxItems := 0, maxBytes := none, consistency := .atAccess,
        aliasPol := .preserve, pendingBytes := 0 } 0).ready = true ∧
    ({ handles := [{ value := some 0, ready := true }], queue := [],
       maxItems := 0, maxBytes := none, consistency := .atAccess,
       aliasPol := .preserve, pendingBytes := 0 } : BatcherSt).queue = [] ∧
    (0 : Nat) = 0 :=
  c6_nonpositive_max_items_accepted 0 (by decide) none .preserve 3 [.atom 7] 0
    { handles := [{ value := some 0, ready := true }], queue := [],
      maxItems := 0, maxBytes := none, consistency := .atAccess,
      aliasPol := .preserve, pendingBytes := 0 } [.atom 7] 0 (by decide)

/-- C7: with `max_items = 2`, after the second successful `defer` — and
so strictly before the third `defer` call returns — both earlier handles
are ready, with no explicit flush call; the third handle is pending and
queued.  In general, a successful non-strict `defer` whose appended
queue length reaches `max_items` returns exactly the outcome of flushing
the appended queue (the flush happens before `defer` returns). -/
theorem c7_auto_flush_threshold :
    (∀ fuel h0 a1 a2 a3 st1 hp1 i1 st2 hp2 i2 st3 hp3 i3,
      defer fuel (DeepcopyBatcher.init 2 none .atAccess .preserve) h0 a1 none none =
        (none, st1, hp1, i1) →
      defer fuel st1 hp1 a2 none none = (none, st2, hp2, i2) →
      defer fuel st2 hp2 a3 none none = (none, st3, hp3, i3) →
      (handleAt st1 i1).ready = false ∧
        (handleAt st2 i1).ready = true ∧ (handleAt st2 i2).ready = true ∧
        (handleAt st3 i3).ready = false ∧ st3.queue.length = 1) ∧
    (∀ fuel st heap obj aliasArg, st.consistency = .atAccess →
      ((st.queue.length : Int) + 1 ≥ st.maxItems) →
      defer fuel st heap obj none aliasArg =
        ((flushLocked fuel
            { st with
                handles := st.handles ++ [Handle.init],
                queue := st.queue ++
                  [{ handle := st.handles.length, obj := obj,
                     aliasPol := aliasArg.getD st.aliasPol }] } heap).1,
         (flushLocked fuel
            { st with
                handles := st.handles ++ [Handle.init],
                queue := st.queue ++
                  [{ handle := st.handles.length, obj := obj,
                     aliasPol := aliasArg.getD st.aliasPol }] } heap).2.1,
         (flushLocked fuel
            { st with
                handles := st.handles ++ [Handle.init],
                queue := st.queue ++
                  [{ handle := st.handles.length, obj := obj,
                     aliasPol := aliasArg.getD st.aliasPol }] } heap).2.2,
         st.handles.length)) := by
  constructor
  · intro fuel h0 a1 a2 a3 st1 hp1 i1 st2 hp2 i2 st3 hp3 i3 h1 h2 h3
    have e1 : defer fuel (DeepcopyBatcher.init 2 none .atAccess .preserve) h0 a1
        none none =
        (none,
          { handles := [Handle.init],
            queue := [{ handle := 0, obj := a1, aliasPol := .preserve }],
            maxItems := 2, maxBytes := none, consistency := .atAccess,
            aliasPol := .preserve, pendingBytes := 0 }, h0, 0) := rfl
    rw [e1] at h1
    simp only [Prod.mk.injEq] at h1
    obtain ⟨-, h1st, h1hp, h1i⟩ := h1
    subst h1st; subst h1hp; subst h1i
    obtain ⟨h2q, h2i, h2ready, h2old, h2mi, h2mb, h2c, h2a, h2len⟩ :=
      defer_autoflush_resolves fuel
        { handles := [Handle.init],
          queue := [{ handle := 0, obj := a1, aliasPol := .preserve }],
          maxItems := 2, maxBytes := none, consistency := .atAccess,
          aliasPol := .preserve, pendingBytes := 0 } h0 a2 none st2 hp2 i2 rfl
        (by simp) (by simp) h2
    have hia : (handleAt st2 0).ready = true := by
      exact h2old { handle := 0, obj := a1, aliasPol := .preserve } (by simp)
    have hsf3 : shouldFlushLocked
        { st2 with
            handles := st2.handles ++ [Handle.init],
            queue := st2.queue ++
              [{ handle := st2.handles.length, obj := a3,
                 aliasPol := (none : Option Alias).getD st2.aliasPol }] } = false := by
      simp only [shouldFlushLocked]
      rw [if_neg]
      · rw [h2mb]
      · simp [h2q, h2mi]
    rw [defer_no_flush_path fuel st2 hp2 a3 none h2c hsf3] at h3
    simp only [Prod.mk.injEq] at h3
    obtain ⟨-, h3st, h3hp, h3i⟩ := h3
    refine ⟨by simp [handleAt, Handle.init], hia, h2ready, ?_, ?_⟩
    · rw [← h3st, ← h3i]
      simp only [handleAt]
      rw [getD_append_length]
      rfl
    · rw [← h3st]
      simp [h2q]
  · intro fuel st heap obj aliasArg hcons hlen
    refine defer_flush_path fuel st heap obj aliasArg hcons ?_
    simp only [shouldFlushLocked]
    split
    · rfl
    · rename_i hc
      exfalso
      simp at hc
      omega

/-- Witness for C7 on a concrete heap: three defers of the two lists at
addresses 1 and 2. -/
theorem c7_auto_flush_threshold_witness :
    ((handleAt
      { handles := [Handle.init],
        queue := [{ handle := 0, obj := 1, aliasPol := .preserve }],
        maxItems := 2, maxBytes := none, consistency := .atAccess,
        aliasPol := .preserve, pendingBytes := 0 } 0).ready = false) ∧
    (handleAt
      { handles := [{ value := some 3, ready := true }, { value := some 3, ready := true }],
        queue := [], maxItems := 2, maxBytes := none, consistency := .atAccess,
        aliasPol := .preserve, pendingBytes := 0 } 0).ready = true := by
  have h := (c7_auto_flush_threshold.1 6 [.atom 7, .plist [0], .plist [1]] 1 1 2
    { handles := [Handle.init],
      queue := [{ handle := 0, obj := 1, aliasPol := .preserve }],
      maxItems := 2, maxBytes := none, consistency := .atAccess,
      aliasPol := .preserve, pendingBytes := 0 } [.atom 7, .plist [0], .plist [1]] 0
    { handles := [{ value := some 3, ready := true }, { value := some 3, ready := true }],
      queue := [], maxItems := 2, maxBytes := none, consistency := .atAccess,
      aliasPol := .preserve, pendingBytes := 0 }
    [.atom 7, .plist [0], .plist [1], .plist [0]] 1
    { handles := [{ value := some 3, ready := true }, { value := some 3, ready := true },
        Handle.init],
      queue := [{ handle := 2, obj := 2, aliasPol := .preserve }],
      maxItems := 2, maxBytes := none, consistency := .atAccess,
      aliasPol := .preserve, pendingBytes := 0 }
    [.atom 7, .plist [0], .plist [1], .plist [0]] 2 (by decide) (by decide) (by decide))
  exact ⟨h.1, h.2.1⟩

theorem deepcopyAddr_ok_hget {fuel : Nat} {h : Heap} {memo : List (Nat × Nat)}
    {a : Nat} {x : Heap × List (Nat × Nat) × Nat}
    (hok : deepcopyAddr fuel h memo a = .ok x) : ∃ o, hget h a = some o := by
  cases fuel with
  | zero => simp [deepcopyAddr] at hok
  | succ fuel =>
    simp only [deepcopyAddr] at hok
    rcases hg : hget h a with _ | o
    · rw [hg] at hok; cases hok
    · exact ⟨o, rfl⟩

/-- C8: consistency modes.  Strict half: a successful `strict` defer
returns an already-ready handle whose value is the deep copy taken at
defer time, the queue is untouched (the entry never enters it), and a
later in-place mutation of any pre-existing container — in particular of
the source object — leaves the resolved value's deep structure
unchanged.  At-access half: deferring under the default `at_access`
mode leaves the handle pending; mutating the object before the flush
and then resolving yields a value that deep-equals the post-mutation
(pre-flush) state of the object and is a fresh instance. -/
theorem c8_consistency_modes :
    (∀ fuel st heap obj st' heap' i,
      heapWFb heap = true →
      defer fuel st heap obj (some .strict) none = (none, st', heap', i) →
      (handleAt st' i).ready = true ∧ st'.queue = st.queue ∧
        ∃ r, (handleAt st' i).value = some r ∧
          (∀ n, structEq n heap' obj heap' r = true) ∧
          ∀ b v, b < heap.length → (∃ zs, hget heap b = some (.plist zs)) →
            ∀ n, structEq n (hset heap' b (.plist v)) r heap' r = true) ∧
    (∀ fuel h0 a zs newElems st1 hp1 i st2 H v,
      heapWFb h0 = true → hget h0 a = some (.plist zs) →
      (∀ y ∈ newElems, y < h0.length) →
      defer fuel (DeepcopyBatcher.init 64 none .atAccess .preserve) h0 a none none =
        (none, st1, hp1, i) →
      get fuel st1 (hset h0 a (.plist newElems)) i = (none, st2, H, some v) →
      (handleAt st1 i).ready = false ∧
        (∀ n, structEq n H a H v = true) ∧ v ≠ a) := by
  constructor
  · intro fuel st heap obj st' heap' i hwf h
    rw [defer_strict_path] at h
    rcases hcp : deepcopyAddr fuel heap [] obj with er | ⟨heap2, M, r⟩
    · rw [hcp] at h; cases h
    · rw [hcp] at h
      dsimp only at h
      simp only [Prod.mk.injEq] at h
      obtain ⟨-, hst, hh, hi⟩ := h
      obtain ⟨o, hg⟩ := deepcopyAddr_ok_hget hcp
      have hlt : obj < heap.length := hget_lt_length hg
      obtain ⟨hkeep, hse, hmut⟩ := deepcopyAddr_correct hwf hlt hcp
      refine ⟨?_, ?_, r, ?_, ?_, ?_⟩
      · rw [← hst, ← hi]
        simp only [handleAt]
        rw [getD_append_length]
      · rw [← hst]
      · rw [← hst, ← hi]
        simp only [handleAt]
        rw [getD_append_length]
      · rw [← hh]
        exact hse
      · intro b v hb hbc
        rw [← hh]
        exact hmut b (.plist v) hb hbc
  · intro fuel h0 a zs newElems st1 hp1 i st2 H v hwf ha hne h1 h2
    have e1 : defer fuel (DeepcopyBatcher.init 64 none .atAccess .preserve) h0 a
        none none =
        (none,
          { handles := [Handle.init],
            queue := [{ handle := 0, obj := a, aliasPol := .preserve }],
            maxItems := 64, maxBytes := none, consistency := .atAccess,
            aliasPol := .preserve, pendingBytes := 0 }, h0, 0) := rfl
    rw [e1] at h1
    simp only [Prod.mk.injEq] at h1
    obtain ⟨-, h1st, h1hp, h1i⟩ := h1
    subst h1st; subst h1hp; subst h1i
    have hb : buildInputs [{ handle := 0, obj := a, aliasPol := .preserve }] [] [] [] =
        ([a], [0]) := by
      simp [buildInputs, mlookup]
    rw [get] at h2
    rw [if_neg (by simp [handleAt, Handle.init])] at h2
    rw [flush] at h2
    rw [if_neg (by simp)] at h2
    rw [flushLocked] at h2
    rw [if_neg (by simp [aliasIsDuplicate])] at h2
    simp only [hb] at h2
    rcases hcp : deepcopyElems fuel (hset h0 a (.plist newElems)) [] [a] with
      er | ⟨H', M, outs⟩ <;> rw [hcp] at h2
    · simp at h2
    · have hlen : outs.length = 1 := by simpa using deepcopyElems_length hcp
      rcases List.length_eq_one.mp hlen with ⟨r, rfl⟩
      simp only [List.map_cons, List.map_nil, List.zip_cons_cons, List.zip_nil_right,
        List.getD, fanOut, List.foldl_cons, List.foldl_nil] at h2
      simp only [Prod.mk.injEq] at h2
      obtain ⟨-, h2st, h2H, h2v⟩ := h2
      subst h2H
      simp only [handleAt, List.set, List.getD, List.get?, Option.getD_some] at h2v
      have hv : v = r := by
        simp at h2v
        omega
      have hwf1 : heapWFb (hset h0 a (.plist newElems)) = true := by
        refine heapWFb_hset hwf ?_
        intro y hy
        exact hne y hy
      have ha1 : hget (hset h0 a (.plist newElems)) a = some (.plist newElems) :=
        hget_hset_self _ (hget_lt_length ha)
      obtain ⟨hkeep, hf⟩ := deepcopyElems_correct hwf1
        (by intro x hx
            simp at hx
            rw [hx, hset_length]
            exact hget_lt_length ha) hcp
      rcases List.forall₂_cons.mp hf with ⟨hpair, -⟩
      rcases hpair with ⟨hse, hdisj⟩
      refine ⟨by simp [handleAt, Handle.init], by rw [hv]; exact hse, ?_⟩
      rcases hdisj with ⟨⟨m, hm⟩, -⟩ | ⟨hge, -⟩
      · rw [ha1] at hm; cases hm
      · have halt : a < (hset h0 a (.plist newElems)).length := hget_lt_length ha1
        omega

/-- Witness for C8: strict defer of the list at address 1, and an
at-access defer of the same list mutated to `[0, 0]` before resolution. -/
theorem c8_consistency_modes_witness :
    structEq 5 [.atom 1, .plist [0], .plist [0]] 1 [.atom 1, .plist [0], .plist [0]] 2 =
      true ∧
    structEq 5 [.atom 1, .plist [0, 0], .plist [0, 0]] 1
      [.atom 1, .plist [0, 0], .plist [0, 0]] 2 = true ∧ (2 : Nat) ≠ 1 := by
  obtain ⟨hready, hq, r, hval, hse, hmut⟩ := c8_consistency_modes.1 6
    (DeepcopyBatcher.init 64 none .atAccess .preserve) [.atom 1, .plist [0]] 1
    { handles := [{ value := some 2, ready := true }], queue := [],
      maxItems := 64, maxBytes := none, consistency := .atAccess,
      aliasPol := .preserve, pendingBytes := 0 }
    [.atom 1, .plist [0], .plist [0]] 0 (by decide) (by decide)
  obtain ⟨-, hse2, hne2⟩ := c8_consistency_modes.2 6 [.atom 1, .plist [0]] 1 [0] [0, 0]
    { handles := [Handle.init],
      queue := [{ handle := 0, obj := 1, aliasPol := .preserve }],
      maxItems := 64, maxBytes := none, consistency := .atAccess,
      aliasPol := .preserve, pendingBytes := 0 } [.atom 1, .plist [0]] 0
    { handles := [{ value := some 2, ready := true }], queue := [],
      maxItems := 64, maxBytes := none, consistency := .atAccess,
      aliasPol := .preserve, pendingBytes := 0 }
    [.atom 1, .plist [0, 0], .plist [0, 0]] 2
    (by decide) (by decide) (by decide) (by decide) (by decide)
  have hr : r = 2 := by
    have h2 : (handleAt
        { handles := [{ value := some 2, ready := true }], queue := [],
          maxItems := 64, maxBytes := none, consistency := .atAccess,
          aliasPol := .preserve, pendingBytes := 0 } 0).value = some 2 := by decide
    rw [hval] at h2
    exact Option.some.inj h2
  subst hr
  exact ⟨hse 5, hse2 5, hne2⟩

/-- C9: any delegating operation on a proxy whose handle is pending goes
through `_Proxy._resolve` = `get`, which flushes the whole queue: after
one successful such operation every handle queued at that moment — not
only the proxy's own — is ready and the queue is empty.  `__repr__` on a
pending proxy answers the fixed unresolved marker and performs no
resolution: the state and heap come back unchanged and the handle stays
pending. -/
theorem c9_proxy_access_flushes_all :
    (∀ fuel st heap p st' heap' v,
      (∀ e ∈ st.queue, e.handle < st.handles.length) →
      (handleAt st (Proxy.handle p)).ready = false →
      proxyResolve fuel st heap p = (none, st', heap', v) →
      st'.queue = [] ∧ ∀ e ∈ st.queue, (handleAt st' e.handle).ready = true) ∧
    (∀ st heap p, (handleAt st (Proxy.handle p)).ready = false →
      proxyRepr st heap p = ("<LazyDeepCopy unresolved>", st, heap)) := by
  constructor
  · intro fuel st heap p st' heap' v hr hpend h
    simp only [proxyResolve, get] at h
    rw [if_neg (by simp [hpend])] at h
    rw [flush] at h
    by_cases hq : st.queue.isEmpty
    · rw [if_pos hq] at h
      dsimp only at h
      simp only [Prod.mk.injEq] at h
      obtain ⟨-, hst, -, -⟩ := h
      have hqe : st.queue = [] := List.isEmpty_iff.mp hq
      rw [← hst]
      refine ⟨hqe, ?_⟩
      intro e he
      rw [hqe] at he
      cases he
    · rw [if_neg hq] at h
      rcases hfl : flushLocked fuel st heap with ⟨e?, st2, h2⟩
      rw [hfl] at h
      cases e? with
      | some e => simp at h
      | none =>
        dsimp only at h
        simp only [Prod.mk.injEq] at h
        obtain ⟨-, hst, -, -⟩ := h
        obtain ⟨hqe, -, hready⟩ := flushLocked_ok_resolves hr hfl
        rw [← hst]
        exact ⟨hqe, fun e he => (hready e he).1⟩
  · intro st heap p hpend
    rw [proxyRepr, if_neg (by simp [hpend])]

/-- Witness for C9: a two-entry queue resolved through one proxy access,
and the repr of a pending proxy. -/
theorem c9_proxy_access_flushes_all_witness :
    (handleAt
      { handles := [{ value := some 2, ready := true }, { value := some 2, ready := true }],
        queue := [], maxItems := 64, maxBytes := none, consistency := .atAccess,
        aliasPol := .preserve, pendingBytes := 0 } 0).ready = true ∧
    (handleAt
      { handles := [{ value := some 2, ready := true }, { value := some 2, ready := true }],
        queue := [], maxItems := 64, maxBytes := none, consistency := .atAccess,
        aliasPol := .preserve, pendingBytes := 0 } 1).ready = true ∧
    proxyRepr
      { handles := [Handle.init],
        queue := [{ handle := 0, obj := 1, aliasPol := .preserve }],
        maxItems := 64, maxBytes := none, consistency := .atAccess,
        aliasPol := .preserve, pendingBytes := 0 } [.atom 1, .plist [0]]
      { handle := 0 } =
      ("<LazyDeepCopy unresolved>",
        { handles := [Handle.init],
          queue := [{ handle := 0, obj := 1, aliasPol := .preserve }],
          maxItems := 64, maxBytes := none, consistency := .atAccess,
          aliasPol := .preserve, pendingBytes := 0 }, [.atom 1, .plist [0]]) := by
  have h := c9_proxy_access_flushes_all.1 6
    { handles := [Handle.init, Handle.init],
      queue := [{ handle := 0, obj := 1, aliasPol := .preserve }, { handle := 1, obj := 1, aliasPol := .preserve }],
      maxItems := 64, maxBytes := none, consistency := .atAccess,
      aliasPol := .preserve, pendingBytes := 0 } [.atom 1, .plist [0]] { handle := 0 }
    { handles := [{ value := some 2, ready := true }, { value := some 2, ready := true }],
      queue := [], maxItems := 64, maxBytes := none, consistency := .atAccess,
      aliasPol := .preserve, pendingBytes := 0 } [.atom 1, .plist [0], .plist [0]]
    (some 2) (by decide) (by decide) (by decide)
  have hrepr := c9_proxy_access_flushes_all.2
    { handles := [Handle.init],
      queue := [{ handle := 0, obj := 1, aliasPol := .preserve }],
      maxItems := 64, maxBytes := none, consistency := .atAccess,
      aliasPol := .preserve, pendingBytes := 0 } [.atom 1, .plist [0]]
    { handle := 0 } (by decide)
  exact ⟨h.2 { handle := 0, obj := 1, aliasPol := .preserve } (by decide),
    h.2 { handle := 1, obj := 1, aliasPol := .preserve } (by decide), hrepr⟩

/-- The batcher states reachable through the public operations, from any
initial configuration. -/
inductive Reach : BatcherSt → Prop where
  | init : ∀ mi mb c al, Reach (DeepcopyBatcher.init mi mb c al)
  | deferStep : ∀ st fuel heap obj cArg aArg, Reach st →
      Reach (defer fuel st heap obj cArg aArg).2.1
  | flushStep : ∀ st fuel heap, Reach st → Reach (flush fuel st heap).2.1
  | getStep : ∀ st fuel heap i, Reach st → Reach (get fuel st heap i).2.1

theorem flushLocked_pendingBytes (fuel : Nat) (st : BatcherSt) (heap : Heap)
    (h0 : st.pendingBytes = 0) : (flushLocked fuel st heap).2.1.pendingBytes = 0 := by
  unfold flushLocked
  by_cases hall : st.queue.all (fun e => aliasIsDuplicate e.aliasPol)
  · rw [if_pos hall]
    rcases hq : deepcopyElems fuel heap [] (st.queue.map (fun e => e.obj)) with
      e | ⟨h2, m2, outs⟩ <;> simp [hq, h0]
  · rw [if_neg hall]
    rcases hq : deepcopyElems fuel heap [] (buildInputs st.queue [] [] []).1 with
      e | ⟨h2, m2, outs⟩ <;> simp [hq, h0]

theorem flush_pendingBytes (fuel : Nat) (st : BatcherSt) (heap : Heap)
    (h0 : st.pendingBytes = 0) : (flush fuel st heap).2.1.pendingBytes = 0 := by
  rw [flush]
  by_cases hq : st.queue.isEmpty
  · rw [if_pos hq]; exact h0
  · rw [if_neg hq]; exact flushLocked_pendingBytes fuel st heap h0

theorem defer_pendingBytes (fuel : Nat) (st : BatcherSt) (heap : Heap) (obj : Nat)
    (cArg : Option Consistency) (aArg : Option Alias) (h0 : st.pendingBytes = 0) :
    (defer fuel st heap obj cArg aArg).2.1.pendingBytes = 0 := by
  rw [defer]
  by_cases hc : cArg.getD st.consistency = .strict
  · rw [if_pos hc]
    rcases hq : deepcopyAddr fuel heap [] obj with e | ⟨h2, m2, r⟩ <;> simp [hq, h0]
  · rw [if_neg hc]
    by_cases hsf : shouldFlushLocked
      { st with
          handles := st.handles ++ [Handle.init],
          queue :=
            st.queue ++ [{ handle := st.handles.length, obj := obj, aliasPol := aArg.getD st.aliasPol }] }
    · simp only [hsf, if_true]
      rcases hfl : flushLocked fuel
        { st with
            handles := st.handles ++ [Handle.init],
            queue :=
              st.queue ++ [{ handle := st.handles.length, obj := obj, aliasPol := aArg.getD st.aliasPol }] }
        heap with ⟨e?, st2, h2⟩
      have := flushLocked_pendingBytes fuel
        { st with
            handles := st.handles ++ [Handle.init],
            queue :=
              st.queue ++ [{ handle := st.handles.length, obj := obj, aliasPol := aArg.getD st.aliasPol }] }
        heap (by simpa using h0)
      rw [hfl] at this
      simpa [hfl] using this
    · simp only [hsf, if_false]
      simpa using h0

theorem get_pendingBytes (fuel : Nat) (st : BatcherSt) (heap : Heap) (i : Nat)
    (h0 : st.pendingBytes = 0) : (get fuel st heap i).2.1.pendingBytes = 0 := by
  simp only [get]
  by_cases hready : (handleAt st i).ready
  · rw [if_pos hready]; exact h0
  · rw [if_neg hready]
    rcases hfl : flush fuel st heap with ⟨e?, st2, h2⟩
    have := flush_pendingBytes fuel st heap h0
    rw [hfl] at this
    cases e? <;> simpa [hfl] using this

/-- C10, counterexample: `_pending_bytes` is indeed always 0, but the
byte-threshold branch is NOT dead — with `max_bytes = 0` configured, the
comparison `0 >= 0` holds, so the very first defer auto-flushes even
though the queue length (1) is far below `max_items` (5).  This refutes
"the byte-threshold branch fires for no sequence of defer/flush/get
calls" and "auto-flush occurs exactly when the queue length reaches
max_items". -/
theorem c10_byte_branch_fires :
    (let st0 := DeepcopyBatcher.init 5 (some 0) .atAccess .preserve
     let r := defer 6 st0 [.atom 7] 0 none none
     shouldFlushLocked
       { handles := [Handle.init],
         queue := [{ handle := 0, obj := 0, aliasPol := .preserve }],
         maxItems := 5, maxBytes := some 0, consistency := .atAccess,
         aliasPol := .preserve, pendingBytes := 0 } = true ∧
     ¬ ((1 : Int) ≥ 5) ∧
     r.1 = none ∧ (handleAt r.2.1 0).ready = true ∧ r.2.1.queue = []) := by decide

/-- C10 (amended): the byte counter `_pending_bytes` is 0 in every
reachable state — no operation ever increments it — and therefore the
flush decision's byte branch fires exactly when `max_bytes` is
configured with a value ≤ 0; auto-flush is otherwise governed solely by
the queue length reaching `max_items`. -/
theorem c10_pending_bytes_invariant :
    (∀ st, Reach st → st.pendingBytes = 0) ∧
    (∀ st, st.pendingBytes = 0 →
      (shouldFlushLocked st = true ↔
        ((st.queue.length : Int) ≥ st.maxItems ∨
          ∃ b, st.maxBytes = some b ∧ b ≤ 0))) := by
  constructor
  · intro st hst
    induction hst with
    | init mi mb c al => rfl
    | deferStep st fuel heap obj cArg aArg _ ih =>
      exact defer_pendingBytes fuel st heap obj cArg aArg ih
    | flushStep st fuel heap _ ih => exact flush_pendingBytes fuel st heap ih
    | getStep st fuel heap i _ ih => exact get_pendingBytes fuel st heap i ih
  · intro st h0
    rw [shouldFlushLocked]
    constructor
    · intro h
      by_cases hlen : (st.queue.length : Int) ≥ st.maxItems
      · exact Or.inl hlen
      · rw [if_neg hlen] at h
        rcases hmb : st.maxBytes with _ | b
        · rw [hmb] at h; cases h
        · rw [hmb] at h
          simp only [decide_eq_true_eq] at h
          rw [h0] at h
          exact Or.inr ⟨b, rfl, by omega⟩
    · intro h
      rcases h with hlen | ⟨b, hmb, hb⟩
      · rw [if_pos hlen]
      · by_cases hlen : (st.queue.length : Int) ≥ st.maxItems
        · rw [if_pos hlen]
        · rw [if_neg hlen, hmb]
          simp only [decide_eq_true_eq]
          omega

/-- Witness for C10: the default construction is reachable and has a
zero byte counter; with `max_bytes = -1` configured the byte branch
makes the flush decision fire even on an empty queue. -/
theorem c10_pending_bytes_invariant_witness :
    (DeepcopyBatcher.init 64 none .atAccess .preserve).pendingBytes = 0 ∧
    shouldFlushLocked (DeepcopyBatcher.init 5 (some (-1)) .atAccess .preserve) = true :=
  ⟨c10_pending_bytes_invariant.1 _ (Reach.init 64 none .atAccess .preserve),
   (c10_pending_bytes_invariant.2 (DeepcopyBatcher.init 5 (some (-1)) .atAccess .preserve)
     (by decide)).mpr (Or.inr ⟨-1, rfl, by decide⟩)⟩

end LazyDeepcopy
